import Mathlib

/-!
# Verification of the releasebot change-integration engine

Shallow embedding of `cmd/releasebot/git.go`: the history ranker
(`gitFetchCLs`), the order resolver (`orderCLs`), the integration driver
(`cherryPickCLs`) and the commit-object reader (`treeAndParentOfCommit`),
together with proofs and refutations of the specification's claims about
them.

Conventions used throughout the embedding:
* Go maps with integer values are modelled as total functions
  `String → Int` whose value on an absent key is `0` (the Go zero value).
* Collaborator calls (git, Gerrit, make.bash) are modelled as an explicit
  environment of deterministic functions; a commit hash stands for the
  commit's content identity.
* Fatal paths (`log.Panic`) are modelled as `none` / `Option` results.
* General recursion that Go expresses with loops is expressed with
  structural recursion (an explicit fuel argument where the measure is not
  structural), so every definition computes by kernel reduction.
-/

namespace Releasebot

/-- Gerrit change record, the fields of `gerrit.ChangeInfo` that
`cherryPickCLs` reads: the change number, the current revision (a commit
hash), the ref of the current revision (`Revisions[CurrentRevision].Ref`)
and the label votes.  The label table is modelled from the spec:
"a mapping from label name to an integer vote" (the gerrit client code is
not part of this repository slice). -/
structure ChangeInfo where
  ChangeNumber : Nat
  CurrentRevision : String
  CurrentRef : String
  labels : List (String × Int)
deriving Repr, DecidableEq

/-- Modelled from the spec: `labelValue` (defined outside this repository
slice) reads the integer vote of a named label on a change, `0` when the
label is absent. -/
def labelValue (change : ChangeInfo) (label : String) : Int :=
  (change.labels.lookup label).getD 0

/-- One CL (ChangeUnit) of the batch, the fields of the `CL` struct that
`git.go` reads and writes: Gerrit change number `Num`, commit hash
`Commit`, source ref `Ref`, prerequisite change numbers `Prereq`, the
rank `Order` assigned by `gitFetchCLs`, and the release-branch Gerrit
change adopted or created by `cherryPickCLs`. -/
structure CL where
  Num : Nat
  Commit : String
  Ref : String
  Prereq : List Nat
  Order : Int
  ReleaseBranchCL : Nat
  ReleaseBranchGerrit : Option ChangeInfo
deriving Repr, DecidableEq

instance : Inhabited CL := ⟨⟨0, "", "", [], 0, 0, none⟩⟩

/-! ## History Ranker: `gitFetchCLs`

`gitFetchCLs` builds `order`, a Go map from commit hash to rank: every
CL's commit is initialised to `-1` (unresolved), every other key reads as
`0`.  It then walks the fetched refs in order (master, the release
branch, then each CL's own non-empty ref); for each ref it scans the
`git log` output (newest first), counts the unresolved target commits
before the first already-ranked commit, and assigns them decreasing
ranks starting at `next + count`. -/

/-- Update one key of a Go-map modelled as a total function. -/
def setKey (order : String → Int) (k : String) (v : Int) : String → Int :=
  fun s => if s = k then v else order s

/-- The `order` map right after the initialisation loop
`for _, cl := range w.CLs { order[cl.Commit] = -1 }`:
target commits read `-1`, all other keys read the Go zero value `0`. -/
def initOrder (targets : List String) : String → Int :=
  fun s => if s ∈ targets then -1 else 0

/-- First loop over one ref's `git log` lines:
`n` counts lines whose order is `-1`, stopping at the first line whose
order is positive. -/
def countScan (order : String → Int) : List String → Nat
  | [] => 0
  | line :: rest =>
    if order line > 0 then 0
    else (if order line = -1 then 1 else 0) + countScan order rest

/-- Second loop over the same lines: assign `order[line] = n; n--` to each
line whose order is `-1`, stopping at the first line whose order is
positive. -/
def assignScan (order : String → Int) (n : Int) : List String → (String → Int)
  | [] => order
  | line :: rest =>
    if order line > 0 then order
    else if order line = -1 then assignScan (setKey order line n) (n - 1) rest
    else assignScan order n rest

/-- One iteration of the `for _, ref := range args[3:]` loop: count the
scanned prefix, bump `next`, assign decreasing ranks. -/
def rankPass (order : String → Int) (next : Nat) (lines : List String) :
    (String → Int) × Nat :=
  let n : Nat := countScan order lines + next
  (assignScan order (n : Int) lines, n)

/-- The whole ref loop of `gitFetchCLs`, folded over the list of
`git log` outputs (one list of commit hashes, newest first, per ref). -/
def rankRefs (order : String → Int) (next : Nat) :
    List (List String) → (String → Int) × Nat
  | [] => (order, next)
  | lines :: rest =>
    let p := rankPass order next lines
    rankRefs p.1 p.2 rest

/-- The final `order` map of `gitFetchCLs`, given the target commits and
the per-ref histories. -/
def gitFetchOrder (targets : List String) (histories : List (List String)) :
    String → Int :=
  (rankRefs (initOrder targets) 0 histories).1

/-- The refs fetched and walked by `gitFetchCLs`, in their fixed priority
order: master, the release branch, then each CL's own non-empty ref. -/
def refsOf (master releaseBranch : String) (cls : List CL) : List String :=
  master :: releaseBranch :: (cls.filter (fun cl => cl.Ref ≠ "")).map (·.Ref)

/-- `gitFetchCLs`: rank every CL's commit against the histories returned
by `git log` (the environment `hist` maps a ref name to its newest-first
commit list) and store the result in `cl.Order`. -/
def gitFetchCLs (hist : String → List String) (master releaseBranch : String)
    (cls : List CL) : List CL :=
  let order := gitFetchOrder (cls.map (·.Commit))
    ((refsOf master releaseBranch cls).map hist)
  cls.map (fun cl => { cl with Order := order cl.Commit })

/-- The state (order map and `next` counter) after the first `i` ref
passes. -/
def afterPass (targets : List String) (histories : List (List String))
    (i : Nat) : (String → Int) × Nat :=
  rankRefs (initOrder targets) 0 (histories.take i)

/-- The commit `s` is first assigned its rank while processing the
(0-based) `i`-th reference: unresolved before that pass, resolved after
it. -/
def assignedAt (targets : List String) (histories : List (List String))
    (i : Nat) (s : String) : Prop :=
  (afterPass targets histories i).1 s = -1 ∧
    (afterPass targets histories (i + 1)).1 s ≠ -1

instance (targets : List String) (histories : List (List String))
    (i : Nat) (s : String) : Decidable (assignedAt targets histories i s) :=
  inferInstanceAs (Decidable (_ ∧ _))

/-- Position of the first occurrence of `s` in a walk (the number of
lines strictly before it); equals the length when `s` is absent. -/
def firstIdx : List String → String → Nat
  | [], _ => 0
  | line :: rest, s => if line = s then 0 else firstIdx rest s + 1

/-! ## Order Resolver: `orderCLs`

`orderCLs` first calls
`sort.Slice(cls, func(i, j int) bool { return cls[i].Order < cls[j].Order })`.
`sort.Slice` is specified to sort the slice by the comparison closure
WITHOUT any stability guarantee.  We embed the algorithm executed by the
Go standard library of this code's era (the pre-1.19 `quickSort`) in the
regime `b - a ≤ 12` that covers it completely for small slices: a single
gap-6 shell pass followed by insertion sort — and extend that same
algorithm to all lengths.  Every theorem below depends only on the
documented contract (the result is a sorted permutation); the one place
the exact element order of equal keys matters (claim C6) is evaluated at
length 7, where this is exactly the code path the Go library runs. -/

/-- The `less` closure handed to `sort.Slice`:
`cls[i].Order < cls[j].Order` (indices produced by the sort are always in
range; out of range is mapped to `false`). -/
def lessOrder (l : List CL) (i j : Nat) : Bool :=
  match l[i]?, l[j]? with
  | some a, some b => decide (a.Order < b.Order)
  | _, _ => false

/-- `data.Swap(i, j)` of `sort.Slice`: exchange two slice elements. -/
def swapL (l : List CL) (i j : Nat) : List CL :=
  match l[i]?, l[j]? with
  | some a, some b => (l.set i b).set j a
  | _, _ => l

/-- The gap-6 shell pass of the stdlib sort:
`for i := a+6; i < b; i++ { if data.Less(i, i-6) { data.Swap(i, i-6) } }`
(`a = 0`, `b = l.length`); `fuel` counts the remaining iterations. -/
def shellPass (l : List CL) (i : Nat) : Nat → List CL
  | 0 => l
  | fuel + 1 =>
    if i < l.length then
      shellPass (if lessOrder l i (i - 6) then swapL l i (i - 6) else l)
        (i + 1) fuel
    else l

/-- The inner loop of the stdlib `insertionSort`:
`for j := i; j > a && data.Less(j, j-1); j-- { data.Swap(j, j-1) }`. -/
def insInner (l : List CL) : Nat → List CL
  | 0 => l
  | j + 1 => if lessOrder l (j + 1) j then insInner (swapL l (j + 1) j) j else l

/-- The outer loop of the stdlib `insertionSort`:
`for i := a+1; i < b; i++`. -/
def insOuter (l : List CL) (i : Nat) : Nat → List CL
  | 0 => l
  | fuel + 1 =>
    if i < l.length then insOuter (insInner l i) (i + 1) fuel else l

/-- The `sort.Slice` call of `orderCLs` (see the section comment for the
embedding of the stdlib algorithm): nothing to do for `b - a ≤ 1`,
otherwise the shell pass followed by insertion sort. -/
def sortSliceCLs (l : List CL) : List CL :=
  if 1 < l.length then insOuter (shellPass l 6 l.length) 1 l.length else l

/-- The rank at a position of the batch (the `Order` field read by the
`less` closure); `default` beyond the end. -/
def ordAt (l : List CL) (i : Nat) : Int :=
  (l.getD i default).Order

/-- Invariant of the insertion-sort inner loop on `0..i`: all pairs are
ordered except those whose right end is the still-moving position `j`,
and the element at `j` is at most everything strictly between `j` and
`i`. -/
def InsInv (l : List CL) (i j : Nat) : Prop :=
  (∀ p q, p < q → q ≤ i → q ≠ j → ordAt l p ≤ ordAt l q) ∧
  (∀ q, j < q → q ≤ i → ordAt l j ≤ ordAt l q)

/-- A batch of 7 units with ranks `9, 1, 2, 3, 4, 5, 1`: the rank tie
between units 1 and 6 is reversed by the embedded `sort.Slice` (the gap-6
shell pass swaps positions 6 and 0 over the head of the tie). -/
def c6Batch : List CL :=
  [⟨0, "", "", [], 9, 0, none⟩, ⟨1, "", "", [], 1, 0, none⟩,
   ⟨2, "", "", [], 2, 0, none⟩, ⟨3, "", "", [], 3, 0, none⟩,
   ⟨4, "", "", [], 4, 0, none⟩, ⟨5, "", "", [], 5, 0, none⟩,
   ⟨6, "", "", [], 1, 0, none⟩]

/-- The `clByNum` map built by `for _, cl := range cls { clByNum[cl.Num] = cl }`:
a later CL with the same number overwrites an earlier one, so the lookup
yields the position of the LAST CL in the batch with that number
(positions stand for the `*CL` pointers of the Go slice). -/
def clByNum (cls : List CL) (num : Nat) : Option Nat :=
  (List.range cls.length).reverse.find?
    (fun i => decide ((cls.getD i default).Num = num))

/-- State of the depth-first traversal of `orderCLs`: the accumulated
output `order` and the `walking` / `walked` maps (Go maps keyed by `*CL`
pointer, modelled by slice positions; the Go code never removes entries
from `walking`). -/
structure WalkSt where
  order : List Nat
  walking : List Nat
  walked : List Nat
deriving Repr, DecidableEq

/-- The mutually recursive `walk(cl)` of `orderCLs` and its
`for _, prereq := range cl.Prereq` loop, defunctionalised into one
fuel-indexed function so that it computes by kernel reduction:
`Sum.inl i` is `walk` on the CL at position `i`, `Sum.inr nums` is the
prerequisite loop.  `none` models the three `log.Panic` paths (CL cycle,
prerequisite not in the batch) as well as fuel exhaustion; `orderCLs`
passes fuel that generously bounds the depth of any completing
traversal. -/
def walkGo (cls : List CL) : Nat → Nat ⊕ List Nat → WalkSt → Option WalkSt
  | 0, _, _ => none
  | fuel + 1, Sum.inl i, st =>
    if i ∈ st.walked then some st
    else if i ∈ st.walking then none
    else
      match walkGo cls fuel (Sum.inr (cls.getD i default).Prereq)
          { st with walking := i :: st.walking } with
      | none => none
      | some st2 =>
        some { st2 with order := st2.order ++ [i], walked := i :: st2.walked }
  | _ + 1, Sum.inr [], st => some st
  | fuel + 1, Sum.inr (num :: rest), st =>
    match clByNum cls num with
    | none => none
    | some j =>
      match walkGo cls fuel (Sum.inl j) st with
      | none => none
      | some st2 => walkGo cls fuel (Sum.inr rest) st2

/-- The top-level `for _, cl := range cls { walk(cl) }` loop. -/
def walkAll (cls : List CL) (fuel : Nat) : List Nat → WalkSt → Option WalkSt
  | [], st => some st
  | i :: rest, st =>
    match walkGo cls fuel (Sum.inl i) st with
    | none => none
    | some st2 => walkAll cls fuel rest st2

/-- Fuel that generously bounds the call depth of any completing
traversal (each position is pushed onto `walking` at most once, and each
level of nesting additionally steps through one prerequisite list). -/
def orderFuel (cls : List CL) : Nat :=
  (cls.length + 2) * ((cls.map (fun cl => cl.Prereq.length)).sum + 2) + 2

/-- `orderCLs`: sort by rank, then walk every CL depth-first, pulling
prerequisites in first; `none` models the fatal `log.Panic` paths
(cycle, dangling prerequisite, and the final `dropped CLs during
ordering` completeness check). -/
def orderCLs (cls : List CL) : Option (List CL) :=
  match walkAll (sortSliceCLs cls) (orderFuel (sortSliceCLs cls))
      (List.range (sortSliceCLs cls).length) ⟨[], [], []⟩ with
  | none => none
  | some st =>
    if st.order.length = (sortSliceCLs cls).length then
      some (st.order.map (fun i => (sortSliceCLs cls).getD i default))
    else none

/-- Every prerequisite of the CL at any position of the (index) order
resolves through `clByNum` to a strictly earlier position. -/
def PrereqBefore (cls : List CL) (ord : List Nat) : Prop :=
  ∀ m, m < ord.length → ∀ p ∈ (cls.getD (ord.getD m 0) default).Prereq,
    ∃ k km, clByNum cls p = some k ∧ km < m ∧ ord.getD km 0 = k

/-- Invariant of the traversal state: the output has no duplicates, it
contains exactly the walked positions, all of them in range, and every
emitted CL's prerequisites already appear earlier in the output. -/
def WalkInv (cls : List CL) (st : WalkSt) : Prop :=
  st.order.Nodup ∧
  (∀ j, j ∈ st.order ↔ j ∈ st.walked) ∧
  (∀ j ∈ st.order, j < cls.length) ∧
  PrereqBefore cls st.order

/-- The spec's running example: `A(rank 3)`, `B(rank 1, prereq C)`,
`C(rank 5)`; the resolver must produce `C, B, A`. -/
def c5Batch : List CL :=
  [⟨1, "a", "", [], 3, 0, none⟩,
   ⟨2, "b", "", [10], 1, 0, none⟩,
   ⟨10, "c", "", [], 5, 0, none⟩]

/-- The expected resolved order of `c5Batch`: C first (pulled in by B's
prerequisite), then B, then A. -/
def c5Expected : List CL :=
  [⟨10, "c", "", [], 5, 0, none⟩,
   ⟨2, "b", "", [10], 1, 0, none⟩,
   ⟨1, "a", "", [], 3, 0, none⟩]

/-! ## Integration Driver: `cherryPickCLs`

The git and Gerrit collaborators are modelled as an environment of
deterministic functions.  A commit hash stands for the commit's content
identity: the code compares commits only through the `(tree, parent)`
fingerprint, which is insensitive to the timestamp and author metadata
that make textually repeated commits differ, so the metadata is
quotiented away. -/

/-- Environment of collaborator calls made by `cherryPickCLs`. -/
structure GitEnv where
  /-- `git cherry-pick <commit>` on the given tip: the new local commit,
  or `none` on a conflict (the error path of `runErr`). -/
  cherryPick : String → String → Option String
  /-- `git commit --amend` (the commit hook puts the `[release-branch]`
  prefix in the message): the rewritten commit. -/
  amend : String → String
  /-- The `tree ` header of a commit (`treeAndParentOfCommit`, first
  component). -/
  treeOf : String → String
  /-- The `parent ` header of a commit (`treeAndParentOfCommit`, second
  component). -/
  parentOf : String → String
  /-- `git fetch origin <ref>` followed by reading `FETCH_HEAD`: the
  commit the ref resolves to. -/
  refTip : String → String
  /-- `./make.bash` on the tree of the given commit: build success. -/
  makeBashOK : String → Bool
  /-- `git mail -trybot HEAD` followed by `topGerritCL()`: the Gerrit
  change holding the mailed commit. -/
  mailChange : String → ChangeInfo

/-- Driver state threaded through the loop of `cherryPickCLs`: the
working branch tip (`HEAD` of gitwork) and the `lastRef` / `lastCommit`
pointers used only for reproduction reports. -/
structure DriverState where
  head : String
  lastRef : String
  lastCommit : String
deriving Repr, DecidableEq

/-- Per-unit terminal status in the spec's vocabulary, derived from the
code path taken (modelled from the spec: the Go code encodes these
outcomes as control flow and log records, not a field): `Skipped` =
missing commit, `Rejected` = cherry-pick conflict, `BuildFailed` =
`make.bash` failure, `Reused` = adopted a fingerprint-equal Gerrit
candidate, `Uploaded` = mailed a new change. -/
inductive Status where
  | Skipped
  | Rejected
  | BuildFailed
  | Reused
  | Uploaded
deriving Repr, DecidableEq

/-- Observable events of a driver run.  `logError` (defined outside this
repository slice) is modelled from the spec as a structured record
carrying the reproduction sequence that the code interpolates into its
message: base ref, current tip, source ref, content id. -/
inductive Event where
  /-- `SKIP - missing commit`. -/
  | missingCommit (num : Nat)
  /-- `logError` for `git cherry-pick failed`, with the reproduction
  sequence `(lastRef, lastCommit, cl.Ref, cl.Commit)`. -/
  | applyConflict (num : Nat) (baseRef baseCommit srcRef commit : String)
  /-- One `./make.bash` run (a build validation) at the given tip. -/
  | buildRun (head : String)
  /-- `logError` for `make.bash after git cherry-pick failed`, with the
  same reproduction sequence. -/
  | buildFailed (num : Nat) (baseRef baseCommit srcRef commit : String)
  /-- `git reset --hard FETCH_HEAD`: adopting the candidate's commit. -/
  | resetToCandidate (num : Nat) (commit : String)
  /-- `git mail -trybot HEAD`: one upload call. -/
  | mailed (num : Nat) (head : String)
  /-- `logError` for `missing Code-Review +2` (non-fatal warning). -/
  | reviewWarning (num : Nat)
deriving Repr, DecidableEq

/-- Steps 5–8 of the driver for one unit, after the reconciliation probe:
the build gate (`make.bash` runs unless an adopted candidate carries
`TryBot-Result ≥ +1`; on failure `git reset --hard HEAD^` and the unit is
abandoned), the publish step (`git mail` exactly when there is no adopted
candidate), the `Code-Review ≥ +2` warning, and the update of
`lastRef` / `lastCommit`.  `head` is the current tip (the adopted
candidate's commit after `git reset --hard FETCH_HEAD`, or the amended
local commit); `change` is the adopted candidate, `none` when none
existed or it was discarded on fingerprint mismatch. -/
def buildAndPublish (env : GitEnv) (st : DriverState) (cl : CL)
    (head : String) (change : Option ChangeInfo) (evts : List Event) :
    DriverState × CL × Status × List Event :=
  let skip : Bool := match change with
    | some c => decide (1 ≤ labelValue c "TryBot-Result")
    | none => false
  if skip = false ∧ env.makeBashOK head = false then
    ({ st with head := env.parentOf head }, cl, Status.BuildFailed,
      evts ++ [Event.buildRun head,
        Event.buildFailed cl.Num st.lastRef st.lastCommit cl.Ref cl.Commit])
  else
    let evts1 := if skip then evts else evts ++ [Event.buildRun head]
    match change with
    | some c =>
      (⟨head, c.CurrentRef, c.CurrentRevision⟩,
        { cl with ReleaseBranchCL := c.ChangeNumber,
                  ReleaseBranchGerrit := some c },
        Status.Reused,
        evts1 ++ (if labelValue c "Code-Review" < 2
          then [Event.reviewWarning cl.Num] else []))
    | none =>
      let c := env.mailChange head
      (⟨head, c.CurrentRef, c.CurrentRevision⟩,
        { cl with ReleaseBranchCL := c.ChangeNumber,
                  ReleaseBranchGerrit := some c },
        Status.Uploaded,
        evts1 ++ [Event.mailed cl.Num head] ++
          (if labelValue c "Code-Review" < 2
            then [Event.reviewWarning cl.Num] else []))

/-- One iteration of the `for _, cl := range w.CLs` loop of
`cherryPickCLs`: the missing-commit skip, the cherry-pick (with
`cherry-pick --abort` restoring the tip on conflict), the amend, the
reconciliation probe against `cl.ReleaseBranchGerrit` (fingerprint
comparison; on a match, `git reset --hard FETCH_HEAD`), then the build
gate and publish steps. -/
def cherryPickOne (env : GitEnv) (st : DriverState) (cl : CL) :
    DriverState × CL × Status × List Event :=
  if cl.Commit = "" then
    (st, cl, Status.Skipped, [Event.missingCommit cl.Num])
  else
    match env.cherryPick st.head cl.Commit with
    | none =>
      (st, cl, Status.Rejected,
        [Event.applyConflict cl.Num st.lastRef st.lastCommit cl.Ref cl.Commit])
    | some h0 =>
      match cl.ReleaseBranchGerrit with
      | some cand =>
        if env.treeOf (env.refTip cand.CurrentRef) =
              env.treeOf (env.amend h0) ∧
            env.parentOf (env.refTip cand.CurrentRef) =
              env.parentOf (env.amend h0) then
          buildAndPublish env st cl (env.refTip cand.CurrentRef) (some cand)
            [Event.resetToCandidate cl.Num (env.refTip cand.CurrentRef)]
        else
          buildAndPublish env st cl (env.amend h0) none []
      | none => buildAndPublish env st cl (env.amend h0) none []

/-- The whole loop, threading the driver state and collecting every
unit's final record, terminal status and events. -/
def cherryPickList (env : GitEnv) : DriverState → List CL →
    DriverState × List (CL × Status) × List Event
  | st, [] => (st, [], [])
  | st, cl :: rest =>
    let r := cherryPickOne env st cl
    let rr := cherryPickList env r.1 rest
    (rr.1, (r.2.1, r.2.2.1) :: rr.2.1, r.2.2.2 ++ rr.2.2)

/-- `cherryPickCLs`: process the ordered batch starting from the fresh
release-branch checkout (`lastRef` is the release branch, `lastCommit`
is `origin/<branch>`, as initialised before the loop). -/
def cherryPickCLs (env : GitEnv) (head0 releaseBranch : String)
    (cls : List CL) : DriverState × List (CL × Status) × List Event :=
  cherryPickList env ⟨head0, releaseBranch, "origin/" ++ releaseBranch⟩ cls

/-- The full engine: rank, order, integrate (`none` when the Order
Resolver panics). -/
def releasePipeline (hist : String → List String)
    (master releaseBranch : String) (env : GitEnv) (head0 : String)
    (cls : List CL) :
    Option (DriverState × List (CL × Status) × List Event) :=
  match orderCLs (gitFetchCLs hist master releaseBranch cls) with
  | none => none
  | some ordered => some (cherryPickCLs env head0 releaseBranch ordered)

/-! ### Concrete ranking instances used by counterexamples and witnesses -/

/-- A CL whose commit `x` sits on its own ref `refx`. -/
def c4CLx : CL :=
  { Num := 1, Commit := "x", Ref := "refx", Prereq := [], Order := 0,
    ReleaseBranchCL := 0, ReleaseBranchGerrit := none }

/-- A CL whose commit `y` sits on its own ref `refy`. -/
def c4CLy : CL :=
  { Num := 2, Commit := "y", Ref := "refy", Prereq := [], Order := 0,
    ReleaseBranchCL := 0, ReleaseBranchGerrit := none }

/-- Ancestor-closed git histories: `y` is already merged on master;
`refy` is a branch whose walk is `M, y, x, base` (so both targets `x`
and `y` appear in it, `y` earlier); `refx` carries `x` alone.  Because
`refy`'s scan stops at the already-ranked `y`, `x` is only ranked later
from `refx`, with a larger rank. -/
def c4Hist : String → List String := fun r =>
  if r = "master" then ["y", "base"]
  else if r = "rel" then ["base"]
  else if r = "refx" then ["x", "base"]
  else if r = "refy" then ["M", "y", "x", "base"]
  else []

/-! ## Commit-object reader: `treeAndParentOfCommit`

The byte-level Go string helpers are embedded at the character level so
that everything computes by kernel reduction: `splitLines` is
`strings.Split(out, "\n")`, `hasPre` is `strings.HasPrefix`, and
`dropPre` is the `strings.TrimPrefix` call under a `HasPrefix` guard. -/

/-- `strings.Split(out, "\n")` at the character level: cut at every
newline, keeping empty segments. -/
def splitLinesAux : List Char → List Char → List (List Char)
  | [], acc => [acc.reverse]
  | c :: rest, acc =>
    if c = '\n' then acc.reverse :: splitLinesAux rest []
    else splitLinesAux rest (c :: acc)

/-- `strings.Split(out, "\n")`. -/
def splitLines (out : String) : List String :=
  (splitLinesAux out.data []).map String.mk

/-- `strings.HasPrefix` at the character level. -/
def charsPre : List Char → List Char → Bool
  | [], _ => true
  | _ :: _, [] => false
  | p :: ps, c :: cs => p = c && charsPre ps cs

/-- `strings.HasPrefix(line, pre)`. -/
def hasPre (pre line : String) : Bool :=
  charsPre pre.data line.data

/-- `strings.TrimPrefix(line, pre)` when `pre` is known to be a prefix of
`line`: drop the prefix's characters. -/
def dropPre (pre line : String) : String :=
  String.mk (line.data.drop pre.data.length)

/-- The header-scanning loop of `treeAndParentOfCommit`: walk the lines of
`git cat-file commit`, remember the value of the last `tree ` line and of
the last `parent ` line, stop after the first empty line. -/
def scanTreeParent : List String → String → String → String × String
  | [], tree, parent => (tree, parent)
  | line :: rest, tree, parent =>
    let tree' := if hasPre "tree " line then dropPre "tree " line else tree
    let parent' := if hasPre "parent " line then dropPre "parent " line else parent
    if line = "" then (tree', parent')
    else scanTreeParent rest tree' parent'

/-- `treeAndParentOfCommit` on the raw `git cat-file commit` output:
`none` models the `log.Panicf` on a malformed commit blob (missing tree
or parent header). -/
def treeAndParentOfCommit (out : String) : Option (String × String) :=
  if (scanTreeParent (splitLines out) "" "").1 = "" ∨
      (scanTreeParent (splitLines out) "" "").2 = ""
  then none
  else some (scanTreeParent (splitLines out) "" "")

/-- The header section of the commit object: the lines strictly before
the first empty line (stated in the spec's vocabulary, for comparison
with the scanning loop above). -/
def headerLines (out : String) : List String :=
  (splitLines out).takeWhile (fun l => l ≠ "")

/-- The value of the last header line carrying the given one-word tag:
stated from the claim's words ("the value of the LAST 'parent ' header
appearing before the first empty line"). -/
def lastHeader (pre : String) (lines : List String) : Option String :=
  ((lines.filter (fun l => hasPre pre l)).getLast?).map (fun l => dropPre pre l)

/-! ### Concrete driver instances used by counterexamples and witnesses -/

/-- A pending Gerrit candidate whose trybots have NOT voted
(`TryBot-Result = 0`). -/
def c1Cand : ChangeInfo :=
  ⟨77, "rev77", "refs/changes/77", [("TryBot-Result", 0), ("Code-Review", 2)]⟩

/-- A unit whose known remote candidate is `c1Cand`. -/
def c1CL : CL := ⟨5, "c5", "refs/c5", [], 1, 0, some c1Cand⟩

/-- Driver state at the fresh release-branch checkout. -/
def c1St : DriverState := ⟨"base", "rel", "origin/rel"⟩

/-- Collaborator behaviour: cherry-picking `c5` onto `base` yields
`local5`, amended to `local5-am`, whose `(tree, parent)` fingerprint
(`T5`, `base`) equals that of the candidate's current revision `rev77`;
`make.bash` succeeds everywhere. -/
def c1Env : GitEnv :=
  { cherryPick := fun tip c =>
      if tip = "base" ∧ c = "c5" then some "local5" else none
    amend := fun h => String.append h "-am"
    treeOf := fun h =>
      if h = "rev77" ∨ h = "local5-am" then "T5" else String.append "T-" h
    parentOf := fun h =>
      if h = "rev77" ∨ h = "local5-am" then "base" else String.append "P-" h
    refTip := fun r =>
      if r = "refs/changes/77" then "rev77" else String.append "tip-" r
    makeBashOK := fun _ => true
    mailChange := fun h => ⟨99, h, "refs/new", [("Code-Review", 2)]⟩ }

/-- Like `c1Cand` but with a trusted trybot vote (`TryBot-Result = 1`). -/
def c1wCand : ChangeInfo :=
  ⟨78, "rev77", "refs/changes/77", [("TryBot-Result", 1), ("Code-Review", 2)]⟩

/-- A unit whose known remote candidate is the trusted `c1wCand`. -/
def c1wCL : CL := ⟨6, "c5", "refs/c5", [], 1, 0, some c1wCand⟩

/-- A unit with an empty commit ref is skipped; this one conflicts
instead: its cherry-pick always fails. -/
def c8CL : CL := ⟨4, "cc", "refs/cc", [], 2, 0, none⟩

/-- Driver state at the fresh release-branch checkout. -/
def c8St : DriverState := ⟨"base", "rel", "origin/rel"⟩

/-- Collaborator behaviour where every cherry-pick conflicts. -/
def c8Env : GitEnv :=
  { cherryPick := fun _ _ => none
    amend := fun h => h
    treeOf := fun h => h
    parentOf := fun h => h
    refTip := fun r => r
    makeBashOK := fun _ => true
    mailChange := fun h => ⟨1, h, "r", []⟩ }

/-- A second unit processed after the conflicting one. -/
def c8CL2 : CL := ⟨9, "", "", [], 3, 0, none⟩

/-- A unit whose commit is reachable from no fetched reference. -/
def c7CL : CL := ⟨3, "u", "refu", [], 0, 0, none⟩

/-- Histories in which the commit `u` appears nowhere. -/
def c7Hist : String → List String := fun r =>
  if r = "master" then ["m"]
  else if r = "rel" then ["m"]
  else if r = "refu" then ["z", "m"]
  else []

/-- Collaborator behaviour under which the unranked unit's cherry-pick
nevertheless succeeds and the unit is built and uploaded. -/
def c7Env : GitEnv :=
  { cherryPick := fun tip c =>
      if tip = "m" ∧ c = "u" then some "lu" else none
    amend := fun h => String.append h "A"
    treeOf := fun h => h
    parentOf := fun _ => "m"
    refTip := fun r => String.append "tip-" r
    makeBashOK := fun _ => true
    mailChange := fun h => ⟨41, h, "refs/41", [("Code-Review", 2)]⟩ }

/-- A batch of one unit with no pre-existing candidate. -/
def c2CL : CL := ⟨7, "cc", "", [], 1, 0, none⟩

/-- Driver state at the fresh release-branch checkout. -/
def c2St : DriverState := ⟨"base", "rel", "origin/rel"⟩

/-- Collaborator behaviour for the idempotence counterexample: the first
run uploads the unit; the mailed change's trybots have not voted
(`TryBot-Result = 0`); the second run finds the fingerprint-equal
candidate but re-runs `make.bash`. -/
def c2Env : GitEnv :=
  { cherryPick := fun tip c =>
      if tip = "base" ∧ c = "cc" then some "loc" else none
    amend := fun h => String.append h "A"
    treeOf := fun h => h
    parentOf := fun h => h
    refTip := fun r => if r = "ref9" then "locA" else "none"
    makeBashOK := fun _ => true
    mailChange := fun h => ⟨9, h, "ref9", [("TryBot-Result", 0), ("Code-Review", 2)]⟩ }

/-- The first driver run of the idempotence counterexample. -/
def c2Run1 : DriverState × List (CL × Status) × List Event :=
  cherryPickList c2Env c2St [c2CL]

/-- The second driver run, over the batch left by the first run, from
the same fresh checkout. -/
def c2Run2 : DriverState × List (CL × Status) × List Event :=
  cherryPickList c2Env c2St (c2Run1.2.1.map Prod.fst)

/-- Collaborator behaviour for the idempotence witness: mailed changes
carry a trusted trybot vote, and the mailed ref encodes the commit so
that `refTip` recovers it (`Href` coherence holds for every commit). -/
def c2wEnv : GitEnv :=
  { cherryPick := fun tip c =>
      if tip = "base" ∧ c = "cc" then some "loc" else none
    amend := fun h => String.append h "A"
    treeOf := fun h => h
    parentOf := fun h => h
    refTip := fun r => dropPre "ref/" r
    makeBashOK := fun _ => true
    mailChange := fun h =>
      ⟨9, h, String.append "ref/" h, [("TryBot-Result", 1), ("Code-Review", 2)]⟩ }


/-! ## Lemmas about the History Ranker -/

theorem setKey_same (order : String → Int) (k : String) (v : Int) :
    setKey order k v k = v := by
  simp [setKey]

theorem setKey_other (order : String → Int) {k s : String} (v : Int)
    (h : s ≠ k) : setKey order k v s = order s := by
  simp [setKey, h]

/-- Resolving a key that read `-1` can only shrink the scanned-prefix
count of a later walk (occurrences of that key stop counting, and a new
positive value can only move the stopping point earlier). -/
theorem countScan_setKey_le (rest : List String) (order : String → Int)
    (line : String) (v : Int) (h : order line = -1) :
    countScan (setKey order line v) rest ≤ countScan order rest := by
  induction rest with
  | nil => exact Nat.le_refl 0
  | cons r rs ih =>
    by_cases hr : r = line
    · subst hr
      simp only [countScan, setKey_same, h]
      norm_num
      split
      · exact Nat.zero_le _
      · have h2 : (if v = -1 then 1 else 0) ≤ 1 := by split <;> omega
        omega
    · simp only [countScan, setKey_other _ _ hr]
      split
      · exact Nat.le_refl 0
      · omega

/-- Core behaviour of the assignment loop: a key is either untouched, or
was unresolved (`-1`) and now carries a value in the half-open interval
`(n - c, n]`, where `c` bounds the number of unresolved commits in the
scanned prefix and `n` is the starting cursor. -/
theorem assignScan_spec (lines : List String) :
    ∀ (order : String → Int) (n : Int) (c : Nat),
    countScan order lines ≤ c → (c : Int) ≤ n →
    ∀ s, assignScan order n lines s = order s ∨
      (order s = -1 ∧ n - c < assignScan order n lines s ∧
        assignScan order n lines s ≤ n) := by
  induction lines with
  | nil => intro order n c _ _ s; left; rfl
  | cons line rest ih =>
    intro order n c hc hcn s
    by_cases h1 : order line > 0
    · left; simp [assignScan, h1]
    · by_cases h2 : order line = -1
      · have hstep : assignScan order n (line :: rest) =
            assignScan (setKey order line n) (n - 1) rest := by
          simp [assignScan, h1, h2]
        have hcount : countScan order (line :: rest) =
            1 + countScan order rest := by
          simp [countScan, h1, h2]
        have hc1 : 1 ≤ c := by omega
        have hrest : countScan (setKey order line n) rest ≤ c - 1 := by
          have hmono := countScan_setKey_le rest order line n h2
          omega
        have hcn1 : ((c - 1 : Nat) : Int) ≤ n - 1 := by
          have : ((c - 1 : Nat) : Int) = (c : Int) - 1 := by push_cast [hc1]; ring
          omega
        have IH := ih (setKey order line n) (n - 1) (c - 1) hrest hcn1 s
        have hcast : ((c - 1 : Nat) : Int) = (c : Int) - 1 := by
          push_cast [hc1]; ring
        rw [hstep]
        by_cases hs : s = line
        · subst hs
          rcases IH with heq | ⟨hkey, _, _⟩
          · right
            rw [heq, setKey_same]
            refine ⟨h2, ?_, le_refl n⟩
            have : (1 : Int) ≤ (c : Int) := by exact_mod_cast hc1
            omega
          · exfalso
            rw [setKey_same] at hkey
            have : (1 : Int) ≤ (c : Int) := by exact_mod_cast hc1
            omega
        · rw [setKey_other _ _ hs] at IH
          rcases IH with heq | ⟨hkey, hlow, hhigh⟩
          · left; exact heq
          · right
            refine ⟨hkey, ?_, by omega⟩
            rw [hcast] at hlow
            omega
      · have hstep : assignScan order n (line :: rest) =
            assignScan order n rest := by
          simp [assignScan, h1, h2]
        have hcount : countScan order (line :: rest) = countScan order rest := by
          simp [countScan, h1, h2]
        rw [hstep]
        exact ih order n c (by omega) hcn s

/-- The assignment loop never touches a key that is already resolved. -/
theorem assignScan_preserve (lines : List String) :
    ∀ (order : String → Int) (n : Int) (s : String), order s ≠ -1 →
    assignScan order n lines s = order s := by
  induction lines with
  | nil => intro _ _ _ _; rfl
  | cons line rest ih =>
    intro order n s hs
    by_cases h1 : order line > 0
    · simp [assignScan, h1]
    · by_cases h2 : order line = -1
      · have hne : s ≠ line := fun h => hs (h ▸ h2)
        have hstep : assignScan order n (line :: rest) =
            assignScan (setKey order line n) (n - 1) rest := by
          simp [assignScan, h1, h2]
        rw [hstep, ih (setKey order line n) (n - 1) s
          (by rw [setKey_other _ _ hne]; exact hs), setKey_other _ _ hne]
      · have hstep : assignScan order n (line :: rest) =
            assignScan order n rest := by
          simp [assignScan, h1, h2]
        rw [hstep]; exact ih order n s hs

/-- The assignment loop never touches a key that does not occur in the
walked lines. -/
theorem assignScan_notMem (lines : List String) :
    ∀ (order : String → Int) (n : Int) (s : String), s ∉ lines →
    assignScan order n lines s = order s := by
  induction lines with
  | nil => intro _ _ _ _; rfl
  | cons line rest ih =>
    intro order n s hs
    have hne : s ≠ line := fun h => hs (by rw [h]; exact List.mem_cons_self _ _)
    have hrest : s ∉ rest := fun h => hs (List.mem_cons_of_mem _ h)
    by_cases h1 : order line > 0
    · simp [assignScan, h1]
    · by_cases h2 : order line = -1
      · have hstep : assignScan order n (line :: rest) =
            assignScan (setKey order line n) (n - 1) rest := by
          simp [assignScan, h1, h2]
        rw [hstep, ih (setKey order line n) (n - 1) s hrest,
          setKey_other _ _ hne]
      · have hstep : assignScan order n (line :: rest) =
            assignScan order n rest := by
          simp [assignScan, h1, h2]
        rw [hstep]; exact ih order n s hrest

/-- Within one pass, the commit occurring earlier in the walk receives
the strictly greater rank: the cursor only decreases. -/
theorem assignScan_mono (lines : List String) :
    ∀ (order : String → Int) (n : Int) (c : Nat),
    countScan order lines ≤ c → (c : Int) ≤ n →
    ∀ s t, firstIdx lines s < firstIdx lines t →
      order s = -1 → order t = -1 →
      assignScan order n lines s ≠ -1 → assignScan order n lines t ≠ -1 →
      assignScan order n lines t < assignScan order n lines s := by
  induction lines with
  | nil =>
    intro order n c _ _ s t hidx _ _ _ _
    exact absurd hidx (by simp [firstIdx])
  | cons line rest ih =>
    intro order n c hc hcn s t hidx hs ht hs' ht'
    by_cases h1 : order line > 0
    · exfalso
      apply hs'
      simp only [assignScan, if_pos h1]
      exact hs
    · by_cases h2 : order line = -1
      · have hstep : assignScan order n (line :: rest) =
            assignScan (setKey order line n) (n - 1) rest := by
          simp [assignScan, h1, h2]
        have hcount : countScan order (line :: rest) =
            1 + countScan order rest := by
          simp [countScan, h1, h2]
        have hc1 : 1 ≤ c := by omega
        have hrest : countScan (setKey order line n) rest ≤ c - 1 := by
          have hmono := countScan_setKey_le rest order line n h2
          omega
        have hcast : ((c - 1 : Nat) : Int) = (c : Int) - 1 := by
          push_cast [hc1]; ring
        have hcn1 : ((c - 1 : Nat) : Int) ≤ n - 1 := by
          rw [hcast]; omega
        have hcpos : (1 : Int) ≤ (c : Int) := by exact_mod_cast hc1
        by_cases hsl : line = s
        · subst hsl
          have htl : line ≠ t := by
            intro h
            have e1 : firstIdx (line :: rest) line = 0 := by simp [firstIdx]
            have e2 : firstIdx (line :: rest) t = 0 := by simp [firstIdx, h]
            rw [e1, e2] at hidx
            exact absurd hidx (lt_irrefl 0)
          rw [hstep] at hs' ht' ⊢
          have hres_s : assignScan (setKey order line n) (n - 1) rest line = n := by
            rw [assignScan_preserve rest _ _ _ (by rw [setKey_same]; omega),
              setKey_same]
          have hres_t := assignScan_spec rest (setKey order line n) (n - 1)
            (c - 1) hrest hcn1 t
          rw [setKey_other _ _ (fun h => htl h.symm)] at hres_t
          rcases hres_t with heq | ⟨_, _, hhigh⟩
          · exact absurd (heq.trans ht) ht'
          · rw [hres_s]; omega
        · by_cases htl : line = t
          · exfalso
            subst htl
            have e1 : firstIdx (line :: rest) line = 0 := by simp [firstIdx]
            have e2 : firstIdx (line :: rest) s = firstIdx rest s + 1 := by
              simp [firstIdx, hsl]
            rw [e1, e2] at hidx
            omega
          · have hidx' : firstIdx rest s < firstIdx rest t := by
              simp only [firstIdx, if_neg hsl, if_neg htl] at hidx
              omega
            rw [hstep] at hs' ht' ⊢
            exact ih (setKey order line n) (n - 1) (c - 1) hrest hcn1 s t hidx'
              (by rw [setKey_other _ _ (fun h => hsl h.symm)]; exact hs)
              (by rw [setKey_other _ _ (fun h => htl h.symm)]; exact ht)
              hs' ht'
      · have hstep : assignScan order n (line :: rest) =
            assignScan order n rest := by
          simp [assignScan, h1, h2]
        have hcount : countScan order (line :: rest) = countScan order rest := by
          simp [countScan, h1, h2]
        have hsl : line ≠ s := fun h => h2 (h ▸ hs)
        have htl : line ≠ t := fun h => h2 (h ▸ ht)
        have hidx' : firstIdx rest s < firstIdx rest t := by
          simp only [firstIdx, if_neg hsl, if_neg htl] at hidx
          omega
        rw [hstep] at hs' ht' ⊢
        exact ih order n c (by omega) hcn s t hidx' hs ht hs' ht'

/-- Summary of one ref pass: `next` grows by the scanned count, and every
key is either untouched or was unresolved and now carries a rank in
`(next, next']`. -/
theorem rankPass_spec (order : String → Int) (next : Nat) (lines : List String) :
    (rankPass order next lines).2 = countScan order lines + next ∧
    next ≤ (rankPass order next lines).2 ∧
    ∀ s, (rankPass order next lines).1 s = order s ∨
      (order s = -1 ∧ (next : Int) < (rankPass order next lines).1 s ∧
        (rankPass order next lines).1 s ≤ ((rankPass order next lines).2 : Int)) := by
  refine ⟨rfl, Nat.le_add_left _ _, ?_⟩
  intro s
  have h := assignScan_spec lines order ((countScan order lines + next : Nat) : Int)
    (countScan order lines) (le_refl _) (by push_cast; omega) s
  rcases h with heq | ⟨hkey, hlow, hhigh⟩
  · left; exact heq
  · right
    refine ⟨hkey, ?_, ?_⟩
    · have he : ((countScan order lines + next : Nat) : Int) -
          (countScan order lines : Int) = (next : Int) := by push_cast; ring
      rw [he] at hlow
      exact hlow
    · exact hhigh

theorem rankRefs_append (l1 l2 : List (List String)) (order : String → Int)
    (next : Nat) :
    rankRefs order next (l1 ++ l2) =
      rankRefs (rankRefs order next l1).1 (rankRefs order next l1).2 l2 := by
  induction l1 generalizing order next with
  | nil => rfl
  | cons a l ih => simp only [List.cons_append, rankRefs, List.append_eq, ih]

/-- Once a key is resolved it is never changed by later passes. -/
theorem rankRefs_preserve (hs : List (List String)) :
    ∀ (order : String → Int) (next : Nat) (s : String), order s ≠ -1 →
    (rankRefs order next hs).1 s = order s := by
  induction hs with
  | nil => intro _ _ _ _; rfl
  | cons lines rest ih =>
    intro order next s h
    have hp := (rankPass_spec order next lines).2.2 s
    have hkeep : (rankPass order next lines).1 s = order s := by
      rcases hp with h1 | ⟨h2, _⟩
      · exact h1
      · exact absurd h2 h
    simp only [rankRefs]
    rw [ih _ _ s (by rw [hkeep]; exact h), hkeep]

theorem rankRefs_next_le (hs : List (List String)) :
    ∀ (order : String → Int) (next : Nat),
    next ≤ (rankRefs order next hs).2 := by
  induction hs with
  | nil => intro _ _; exact le_refl _
  | cons lines rest ih =>
    intro order next
    have h1 := (rankPass_spec order next lines).2.1
    have h2 := ih (rankPass order next lines).1 (rankPass order next lines).2
    simp only [rankRefs]
    omega

theorem afterPass_succ (t : List String) (h : List (List String)) (i : Nat)
    (hi : i < h.length) :
    afterPass t h (i + 1) =
      rankPass (afterPass t h i).1 (afterPass t h i).2 h[i] := by
  unfold afterPass
  rw [List.take_succ, rankRefs_append, List.getElem?_eq_getElem hi]
  simp [rankRefs]

theorem afterPass_stable (t : List String) (h : List (List String)) (i : Nat)
    (hi : h.length ≤ i) :
    afterPass t h i = afterPass t h h.length := by
  unfold afterPass
  rw [List.take_of_length_le hi, List.take_of_length_le (le_refl _)]

theorem gitFetchOrder_eq_afterPass (t : List String) (h : List (List String)) :
    gitFetchOrder t h = (afterPass t h h.length).1 := by
  unfold gitFetchOrder afterPass
  rw [List.take_of_length_le (le_refl _)]

/-- `next` never decreases from one pass to the next. -/
theorem afterPass_next_step (t : List String) (h : List (List String)) (i : Nat) :
    (afterPass t h i).2 ≤ (afterPass t h (i + 1)).2 := by
  by_cases hi : i < h.length
  · rw [afterPass_succ t h i hi]
    exact (rankPass_spec _ _ _).2.1
  · rw [afterPass_stable t h (i + 1) (by omega),
      afterPass_stable t h i (by omega)]

theorem afterPass_next_mono (t : List String) (h : List (List String))
    {i j : Nat} (hij : i ≤ j) :
    (afterPass t h i).2 ≤ (afterPass t h j).2 := by
  induction j with
  | zero => exact le_of_eq (by rw [Nat.le_zero.mp hij])
  | succ j ih =>
    rcases Nat.lt_or_ge i (j + 1) with hlt | hge
    · exact le_trans (ih (by omega)) (afterPass_next_step t h j)
    · exact le_of_eq (by rw [Nat.le_antisymm hij hge])

/-- A commit first ranked in pass `i` receives a rank in
`(next_i, next_{i+1}]`, and that rank is its final one. -/
theorem assignedAt_bounds (t : List String) (h : List (List String)) (i : Nat)
    (s : String) (ha : assignedAt t h i s) :
    i < h.length ∧
    gitFetchOrder t h s = (afterPass t h (i + 1)).1 s ∧
    ((afterPass t h i).2 : Int) < gitFetchOrder t h s ∧
    gitFetchOrder t h s ≤ ((afterPass t h (i + 1)).2 : Int) := by
  obtain ⟨h1, h2⟩ := ha
  have hi : i < h.length := by
    by_contra hge
    push_neg at hge
    have heq : afterPass t h (i + 1) = afterPass t h i := by
      rw [afterPass_stable t h (i + 1) (by omega), afterPass_stable t h i hge]
    rw [heq, h1] at h2
    exact h2 rfl
  have hsucc := afterPass_succ t h i hi
  have hfinal : gitFetchOrder t h s = (afterPass t h (i + 1)).1 s := by
    have hsplit : gitFetchOrder t h =
        (rankRefs (afterPass t h (i + 1)).1 (afterPass t h (i + 1)).2
          (h.drop (i + 1))).1 := by
      show (rankRefs (initOrder t) 0 h).1 = _
      conv_lhs => rw [← List.take_append_drop (i + 1) h]
      rw [rankRefs_append]
      rfl
    rw [hsplit]
    exact rankRefs_preserve _ _ _ s h2
  have hp := (rankPass_spec (afterPass t h i).1 (afterPass t h i).2
    (h[i])).2.2 s
  rw [← hsucc] at hp
  rcases hp with heq | ⟨_, hlow, hhigh⟩
  · rw [h1] at heq
    exact absurd heq h2
  · exact ⟨hi, hfinal, by rw [hfinal]; exact hlow, by rw [hfinal]; exact hhigh⟩

/-- A commit whose final rank differs from its initial value was first
assigned in some pass. -/
theorem exists_assignedAt (t : List String) (h : List (List String)) (s : String)
    (hch : gitFetchOrder t h s ≠ initOrder t s) :
    ∃ i, i < h.length ∧ assignedAt t h i s := by
  have key : ∀ k : Nat, (afterPass t h k).1 s ≠ initOrder t s →
      ∃ i, i < k ∧ assignedAt t h i s := by
    intro k
    induction k with
    | zero => intro hk; exact absurd rfl hk
    | succ k ih =>
      intro hk
      by_cases hprev : (afterPass t h k).1 s = initOrder t s
      · by_cases hklen : k < h.length
        · have hsucc := afterPass_succ t h k hklen
          have hp := (rankPass_spec (afterPass t h k).1 (afterPass t h k).2
            (h[k])).2.2 s
          rw [← hsucc] at hp
          rcases hp with heq | ⟨hkey, hlow, _⟩
          · exact absurd (heq.trans hprev) hk
          · refine ⟨k, by omega, hkey, ?_⟩
            omega
        · have : afterPass t h (k + 1) = afterPass t h k := by
            rw [afterPass_stable t h (k + 1) (by omega),
              afterPass_stable t h k (by omega)]
          rw [this] at hk
          exact absurd hprev hk
      · obtain ⟨i, hik, hia⟩ := ih hprev
        exact ⟨i, by omega, hia⟩
  have hfin : gitFetchOrder t h s = (afterPass t h h.length).1 s := by
    rw [gitFetchOrder_eq_afterPass]
  obtain ⟨i, hik, hia⟩ := key h.length (by rw [← hfin]; exact hch)
  exact ⟨i, hik, hia⟩

/-- Only keys initialised to `-1` (that is, target commits) ever change. -/
theorem assigned_init (t : List String) (h : List (List String)) (s : String)
    (hch : gitFetchOrder t h s ≠ initOrder t s) : initOrder t s = -1 := by
  by_contra hne
  exact hch (rankRefs_preserve h _ 0 s hne)

/-- Distinct keys first ranked in the same pass occur in that pass's walk. -/
theorem assignedAt_mem (t : List String) (h : List (List String)) (i : Nat)
    (s : String) (ha : assignedAt t h i s) (hi : i < h.length) :
    s ∈ h[i] := by
  obtain ⟨h1, h2⟩ := ha
  by_contra hmem
  have hsucc := afterPass_succ t h i hi
  have : (afterPass t h (i + 1)).1 s = (afterPass t h i).1 s := by
    rw [hsucc]
    exact assignScan_notMem _ _ _ _ hmem
  rw [this, h1] at h2
  exact h2 rfl

theorem firstIdx_inj (l : List String) :
    ∀ s t, s ∈ l → t ∈ l → firstIdx l s = firstIdx l t → s = t := by
  induction l with
  | nil => intro s t hs _ _; exact absurd hs (List.not_mem_nil s)
  | cons x rest ih =>
    intro s t hs ht heq
    by_cases hxs : x = s
    · by_cases hxt : x = t
      · rw [← hxs, ← hxt]
      · rw [firstIdx, if_pos hxs, firstIdx, if_neg hxt] at heq
        omega
    · by_cases hxt : x = t
      · rw [firstIdx, if_neg hxs, firstIdx, if_pos hxt] at heq
        omega
      · rw [firstIdx, if_neg hxs, firstIdx, if_neg hxt] at heq
        have hs' : s ∈ rest := by
          rcases List.mem_cons.mp hs with h | h
          · exact absurd h.symm hxs
          · exact h
        have ht' : t ∈ rest := by
          rcases List.mem_cons.mp ht with h | h
          · exact absurd h.symm hxt
          · exact h
        exact ih s t hs' ht' (by omega)

/-- Two distinct commits first ranked in the same pass: the one earlier in
that pass's walk gets the strictly greater rank. -/
theorem assignedAt_same_pass_mono (t : List String) (h : List (List String))
    (i : Nat) (hi : i < h.length) (s u : String)
    (hs : assignedAt t h i s) (hu : assignedAt t h i u)
    (hidx : firstIdx (h[i]) s < firstIdx (h[i]) u) :
    gitFetchOrder t h u < gitFetchOrder t h s := by
  obtain ⟨hs1, hs2⟩ := hs
  obtain ⟨hu1, hu2⟩ := hu
  have hsucc := afterPass_succ t h i hi
  have hmono := assignScan_mono (h[i]) (afterPass t h i).1
    ((countScan (afterPass t h i).1 (h[i]) + (afterPass t h i).2 : Nat) : Int)
    (countScan (afterPass t h i).1 (h[i])) (le_refl _)
    (by push_cast; omega) s u hidx hs1 hu1
  have hss : (afterPass t h (i + 1)).1 s =
      assignScan (afterPass t h i).1
        ((countScan (afterPass t h i).1 (h[i]) + (afterPass t h i).2 : Nat) : Int)
        (h[i]) s := by
    rw [hsucc]; rfl
  have huu : (afterPass t h (i + 1)).1 u =
      assignScan (afterPass t h i).1
        ((countScan (afterPass t h i).1 (h[i]) + (afterPass t h i).2 : Nat) : Int)
        (h[i]) u := by
    rw [hsucc]; rfl
  have hlt := hmono (by rw [← hss]; exact hs2) (by rw [← huu]; exact hu2)
  have hfs := (assignedAt_bounds t h i s ⟨hs1, hs2⟩).2.1
  have hfu := (assignedAt_bounds t h i u ⟨hu1, hu2⟩).2.1
  rw [hfs, hfu, hss, huu]
  exact hlt

/-- Ranks assigned in an earlier (higher-priority) pass are strictly less
than ranks assigned in any later (lower-priority) pass. -/
theorem rank_lt_of_pass_lt (targets : List String)
    (histories : List (List String)) (i j : Nat) (s u : String) (hij : i < j)
    (hs : assignedAt targets histories i s)
    (hu : assignedAt targets histories j u) :
    gitFetchOrder targets histories s < gitFetchOrder targets histories u := by
  obtain ⟨_, _, _, hsu⟩ := assignedAt_bounds targets histories i s hs
  obtain ⟨_, _, hul, _⟩ := assignedAt_bounds targets histories j u hu
  have hm : (afterPass targets histories (i + 1)).2 ≤
      (afterPass targets histories j).2 :=
    afterPass_next_mono _ _ (by omega)
  have hm2 : ((afterPass targets histories (i + 1)).2 : Int) ≤
      ((afterPass targets histories j).2 : Int) := by exact_mod_cast hm
  omega

/-! ## Claims C3, C4 and C9 about the History Ranker -/

/-- C3, counterexample.  The claim says a rank assigned while processing a
higher-priority reference (processed earlier: here pass 0, master) is
never LESS than a rank assigned while processing a lower-priority one
(pass 1).  In fact the code assigns ranks in increasing blocks along the
priority list: `a`, ranked from the higher-priority reference, gets rank
1, while `b`, ranked from the lower-priority reference, gets rank 2, and
`1 < 2`. -/
theorem c3_counterexample :
    assignedAt ["a", "b"] [["a"], ["b"]] 0 "a" ∧
    assignedAt ["a", "b"] [["a"], ["b"]] 1 "b" ∧
    gitFetchOrder ["a", "b"] [["a"], ["b"]] "a" <
      gitFetchOrder ["a", "b"] [["a"], ["b"]] "b" :=
  ⟨by decide, by decide, by decide⟩

/-- C3, amended: for two content identifiers first assigned their ranks
while processing a higher-priority and a lower-priority reference
respectively, the rank assigned from the higher-priority reference is
never greater than (indeed always strictly less than) the rank assigned
from the lower-priority one. -/
theorem c3_priority_rank_order (targets : List String)
    (histories : List (List String)) (i j : Nat) (s u : String) (hij : i < j)
    (hs : assignedAt targets histories i s)
    (hu : assignedAt targets histories j u) :
    gitFetchOrder targets histories s < gitFetchOrder targets histories u :=
  rank_lt_of_pass_lt targets histories i j s u hij hs hu

/-- Witness for `c3_priority_rank_order` at a concrete instance. -/
theorem c3_priority_rank_order_witness :
    ((0 : Nat) < 1 ∧ assignedAt ["a", "b"] [["a"], ["b"]] 0 "a" ∧
      assignedAt ["a", "b"] [["a"], ["b"]] 1 "b") ∧
    gitFetchOrder ["a", "b"] [["a"], ["b"]] "a" <
      gitFetchOrder ["a", "b"] [["a"], ["b"]] "b" :=
  ⟨⟨by decide, by decide, by decide⟩,
    c3_priority_rank_order ["a", "b"] [["a"], ["b"]] 0 1 "a" "b"
      (by decide) (by decide) (by decide)⟩

/-- C4, counterexample.  Both targets `x` and `y` occur in the history of
the source reference `refy`, with `y` strictly earlier in the
newest-first walk, yet `y`'s rank (1, from the master pass) is NOT
strictly greater than `x`'s rank (2, assigned later from `refx`, because
`refy`'s scan stopped at the already-ranked `y` before reaching `x`).
The final conjunct is the negation of the claim's conclusion at this
instance. -/
theorem c4_counterexample :
    "y" ∈ c4Hist "refy" ∧ "x" ∈ c4Hist "refy" ∧
    firstIdx (c4Hist "refy") "y" < firstIdx (c4Hist "refy") "x" ∧
    (gitFetchCLs c4Hist "master" "rel" [c4CLx, c4CLy]).map
      (fun cl => (cl.Commit, cl.Order)) = [("x", 2), ("y", 1)] ∧
    ¬ (gitFetchOrder ["x", "y"]
        ((refsOf "master" "rel" [c4CLx, c4CLy]).map c4Hist) "y" >
      gitFetchOrder ["x", "y"]
        ((refsOf "master" "rel" [c4CLx, c4CLy]).map c4Hist) "x") :=
  ⟨by decide, by decide, by decide, by decide, by decide⟩

/-- C4, amended: for two target content identifiers FIRST ASSIGNED their
ranks during the same reference's pass, the one appearing earlier in that
reference's newest-first walk receives the strictly greater rank. -/
theorem c4_same_pass_walk_rank (targets : List String)
    (histories : List (List String)) (i : Nat) (hi : i < histories.length)
    (s u : String) (hs : assignedAt targets histories i s)
    (hu : assignedAt targets histories i u)
    (hidx : firstIdx (histories[i]) s < firstIdx (histories[i]) u) :
    gitFetchOrder targets histories u < gitFetchOrder targets histories s :=
  assignedAt_same_pass_mono targets histories i hi s u hs hu hidx

/-- Witness for `c4_same_pass_walk_rank` at a concrete instance: both
`p` and `q` are ranked in pass 0 over the walk `[p, q]`; the earlier
commit `p` receives rank 2, the later commit `q` rank 1. -/
theorem c4_same_pass_walk_rank_witness :
    ((0 : Nat) < [["p", "q"]].length ∧
      assignedAt ["p", "q"] [["p", "q"]] 0 "p" ∧
      assignedAt ["p", "q"] [["p", "q"]] 0 "q" ∧
      firstIdx ["p", "q"] "p" < firstIdx ["p", "q"] "q") ∧
    gitFetchOrder ["p", "q"] [["p", "q"]] "q" <
      gitFetchOrder ["p", "q"] [["p", "q"]] "p" :=
  ⟨⟨by decide, by decide, by decide, by decide⟩,
    c4_same_pass_walk_rank ["p", "q"] [["p", "q"]] 0 (by decide) "p" "q"
      (by decide) (by decide) (by decide)⟩

/-- C9: every rank the History Ranker assigns (a final value differing
from the initialised map) is strictly positive, hence never the
unresolved sentinel `-1`, and two distinct content identifiers that both
received ranks received distinct ranks. -/
theorem c9_rank_invariants (targets : List String)
    (histories : List (List String)) (s u : String)
    (hs : gitFetchOrder targets histories s ≠ initOrder targets s)
    (hu : gitFetchOrder targets histories u ≠ initOrder targets u) :
    0 < gitFetchOrder targets histories s ∧
    gitFetchOrder targets histories s ≠ -1 ∧
    (s ≠ u →
      gitFetchOrder targets histories s ≠ gitFetchOrder targets histories u) := by
  obtain ⟨i, hi, hia⟩ := exists_assignedAt targets histories s hs
  obtain ⟨j, hj, hja⟩ := exists_assignedAt targets histories u hu
  have hpos : 0 < gitFetchOrder targets histories s := by
    obtain ⟨_, _, hlow, _⟩ := assignedAt_bounds targets histories i s hia
    omega
  refine ⟨hpos, by omega, ?_⟩
  intro hne
  rcases Nat.lt_trichotomy i j with hij | hij | hij
  · have := rank_lt_of_pass_lt targets histories i j s u hij hia hja
    omega
  · subst hij
    have hsm := assignedAt_mem targets histories i s hia hi
    have hum := assignedAt_mem targets histories i u hja hi
    rcases Nat.lt_trichotomy (firstIdx (histories[i]) s)
      (firstIdx (histories[i]) u) with h1 | h1 | h1
    · have := assignedAt_same_pass_mono targets histories i hi s u hia hja h1
      omega
    · exact absurd (firstIdx_inj (histories[i]) s u hsm hum h1) hne
    · have := assignedAt_same_pass_mono targets histories i hi u s hja hia h1
      omega
  · have := rank_lt_of_pass_lt targets histories j i u s hij hja hia
    omega

/-- Witness for `c9_rank_invariants` at a concrete instance. -/
theorem c9_rank_invariants_witness :
    (gitFetchOrder ["a", "b"] [["a"], ["b"]] "a" ≠ initOrder ["a", "b"] "a" ∧
      gitFetchOrder ["a", "b"] [["a"], ["b"]] "b" ≠ initOrder ["a", "b"] "b") ∧
    (0 < gitFetchOrder ["a", "b"] [["a"], ["b"]] "a" ∧
      gitFetchOrder ["a", "b"] [["a"], ["b"]] "a" ≠ -1 ∧
      ("a" ≠ "b" →
        gitFetchOrder ["a", "b"] [["a"], ["b"]] "a" ≠
          gitFetchOrder ["a", "b"] [["a"], ["b"]] "b")) :=
  ⟨⟨by decide, by decide⟩,
    c9_rank_invariants ["a", "b"] [["a"], ["b"]] "a" "b" (by decide) (by decide)⟩

/-! ## Lemmas about the embedded `sort.Slice` -/

theorem length_swapL (l : List CL) (i j : Nat) :
    (swapL l i j).length = l.length := by
  unfold swapL
  cases h1 : l[i]? <;> cases h2 : l[j]? <;> simp

theorem swapL_eq (l : List CL) {i j : Nat} (hi : i < l.length)
    (hj : j < l.length) : swapL l i j = (l.set i l[j]).set j l[i] := by
  unfold swapL
  rw [List.getElem?_eq_getElem hi, List.getElem?_eq_getElem hj]

theorem swapL_perm (ll : List CL) (i j : Nat) : (swapL ll i j).Perm ll := by
  unfold swapL
  cases h1 : ll[i]? with
  | none => exact List.Perm.refl ll
  | some a =>
    cases h2 : ll[j]? with
    | none => exact List.Perm.refl ll
    | some b =>
      obtain ⟨hi, hia⟩ := List.getElem?_eq_some.mp h1
      obtain ⟨hj, hjb⟩ := List.getElem?_eq_some.mp h2
      subst hia
      subst hjb
      rw [List.perm_iff_count]
      intro x
      have hjlen : j < (ll.set i ll[j]).length := by simpa using hj
      rw [List.count_set _ _ _ _ hjlen, List.count_set _ _ _ _ hi]
      have hgs : (ll.set i ll[j])[j] = ll[j] := by
        rw [List.getElem_set]
        split <;> rfl
      rw [hgs]
      have hmemi : ll[i] ∈ ll := List.getElem_mem _
      have hcnt : ll[i] = x → 1 ≤ ll.count x := by
        intro hx
        rw [← hx]
        exact List.count_pos_iff.mpr hmemi
      by_cases hix : ll[i] = x <;> by_cases hjx : ll[j] = x
      · have := hcnt hix
        simp only [beq_iff_eq, hix, hjx, if_true]
        omega
      · have := hcnt hix
        simp [hix, hjx]
        omega
      · simp [hix, hjx]
      · simp [hix, hjx]

theorem insInner_perm : ∀ (j : Nat) (l : List CL), (insInner l j).Perm l := by
  intro j
  induction j with
  | zero => intro l; exact List.Perm.refl l
  | succ j ih =>
    intro l
    unfold insInner
    split
    · exact (ih _).trans (swapL_perm l (j + 1) j)
    · exact List.Perm.refl l

theorem insOuter_perm : ∀ (fuel : Nat) (l : List CL) (i : Nat),
    (insOuter l i fuel).Perm l := by
  intro fuel
  induction fuel with
  | zero => intro l i; exact List.Perm.refl l
  | succ fuel ih =>
    intro l i
    unfold insOuter
    split
    · exact (ih _ _).trans (insInner_perm i l)
    · exact List.Perm.refl l

theorem shellPass_perm : ∀ (fuel : Nat) (l : List CL) (i : Nat),
    (shellPass l i fuel).Perm l := by
  intro fuel
  induction fuel with
  | zero => intro l i; exact List.Perm.refl l
  | succ fuel ih =>
    intro l i
    unfold shellPass
    split
    · split
      · exact (ih _ _).trans (swapL_perm l i (i - 6))
      · exact ih _ _
    · exact List.Perm.refl l

theorem sortSliceCLs_perm (l : List CL) : (sortSliceCLs l).Perm l := by
  unfold sortSliceCLs
  split
  · exact (insOuter_perm _ _ _).trans (shellPass_perm _ _ _)
  · exact List.Perm.refl l

theorem ordAt_eq_getElem (l : List CL) {i : Nat} (h : i < l.length) :
    ordAt l i = l[i].Order := by
  unfold ordAt
  rw [List.getD_eq_getElem?_getD, List.getElem?_eq_getElem h]
  rfl

theorem lessOrder_iff (l : List CL) {i j : Nat} (hi : i < l.length)
    (hj : j < l.length) :
    lessOrder l i j = true ↔ ordAt l i < ordAt l j := by
  unfold lessOrder
  rw [List.getElem?_eq_getElem hi, List.getElem?_eq_getElem hj]
  rw [ordAt_eq_getElem l hi, ordAt_eq_getElem l hj]
  simp

theorem ordAt_swapL_fst (l : List CL) {i j : Nat} (hi : i < l.length)
    (hj : j < l.length) : ordAt (swapL l i j) i = ordAt l j := by
  rw [swapL_eq l hi hj]
  have hlen : i < ((l.set i l[j]).set j l[i]).length := by simpa using hi
  rw [ordAt_eq_getElem _ hlen, ordAt_eq_getElem l hj]
  rw [List.getElem_set, List.getElem_set]
  by_cases hij : j = i
  · subst hij
    simp
  · rw [if_neg hij, if_pos rfl]

theorem ordAt_swapL_snd (l : List CL) {i j : Nat} (hi : i < l.length)
    (hj : j < l.length) : ordAt (swapL l i j) j = ordAt l i := by
  rw [swapL_eq l hi hj]
  have hlen : j < ((l.set i l[j]).set j l[i]).length := by simpa using hj
  rw [ordAt_eq_getElem _ hlen, ordAt_eq_getElem l hi]
  rw [List.getElem_set, if_pos rfl]

theorem ordAt_swapL_other (l : List CL) {i j k : Nat} (hi : i < l.length)
    (hj : j < l.length) (hk1 : k ≠ i) (hk2 : k ≠ j) :
    ordAt (swapL l i j) k = ordAt l k := by
  rw [swapL_eq l hi hj]
  unfold ordAt
  rw [List.getD_eq_getElem?_getD, List.getD_eq_getElem?_getD]
  rw [List.getElem?_set, List.getElem?_set]
  rw [if_neg (fun h => hk2 h.symm), if_neg (fun h => hk1 h.symm)]

/-- The insertion-sort inner loop restores full order on `0..i`. -/
theorem insInner_spec : ∀ (j : Nat) (l : List CL) (i : Nat), j ≤ i →
    i < l.length → InsInv l i j →
    (insInner l j).length = l.length ∧
    ∀ p q, p < q → q ≤ i → ordAt (insInner l j) p ≤ ordAt (insInner l j) q := by
  intro j
  induction j with
  | zero =>
    intro l i _ _ hinv
    refine ⟨rfl, ?_⟩
    intro p q hpq hqi
    exact hinv.1 p q hpq hqi (by omega)
  | succ j ih =>
    intro l i hji hil hinv
    unfold insInner
    by_cases hless : lessOrder l (j + 1) j = true
    · simp only [if_pos hless]
      have hj1 : j + 1 < l.length := by omega
      have hj0 : j < l.length := by omega
      have hlt : ordAt l (j + 1) < ordAt l j := (lessOrder_iff l hj1 hj0).mp hless
      have hlen' : (swapL l (j + 1) j).length = l.length := length_swapL l (j + 1) j
      have hf : ordAt (swapL l (j + 1) j) (j + 1) = ordAt l j :=
        ordAt_swapL_fst l hj1 hj0
      have hs : ordAt (swapL l (j + 1) j) j = ordAt l (j + 1) :=
        ordAt_swapL_snd l hj1 hj0
      have ho : ∀ k, k ≠ j + 1 → k ≠ j → ordAt (swapL l (j + 1) j) k = ordAt l k :=
        fun k h1 h2 => ordAt_swapL_other l hj1 hj0 h1 h2
      have hinv' : InsInv (swapL l (j + 1) j) i j := by
        constructor
        · intro p q hpq hqi hqj
          by_cases hq1 : q = j + 1
          · subst hq1
            rw [hf]
            by_cases hpj : p = j
            · rw [hpj, hs]; omega
            · rw [ho p (by omega) hpj]
              exact hinv.1 p j (by omega) (by omega) (by omega)
          · by_cases hpj : p = j
            · subst hpj
              rw [hs, ho q hq1 hqj]
              exact hinv.2 q (by omega) hqi
            · by_cases hp1 : p = j + 1
              · subst hp1
                rw [hf, ho q hq1 hqj]
                exact hinv.1 j q (by omega) hqi hq1
              · rw [ho p hp1 hpj, ho q hq1 hqj]
                exact hinv.1 p q hpq hqi hq1
        · intro q hjq hqi
          rw [hs]
          by_cases hq1 : q = j + 1
          · subst hq1; rw [hf]; omega
          · rw [ho q hq1 (by omega)]
            exact hinv.2 q (by omega) hqi
      have hrec := ih (swapL l (j + 1) j) i (by omega)
        (by rw [hlen']; exact hil) hinv'
      exact ⟨by rw [hrec.1, hlen'], hrec.2⟩
    · simp only [if_neg hless]
      refine ⟨by first | rfl | trivial, ?_⟩
      have hj1 : j + 1 < l.length := by omega
      have hj0 : j < l.length := by omega
      have hge : ordAt l j ≤ ordAt l (j + 1) := by
        have hn := (lessOrder_iff l hj1 hj0).not.mp hless
        omega
      intro p q hpq hqi
      by_cases hq1 : q = j + 1
      · subst hq1
        by_cases hpj : p = j
        · rw [hpj]; exact hge
        · calc ordAt l p ≤ ordAt l j :=
              hinv.1 p j (by omega) (by omega) (by omega)
            _ ≤ ordAt l (j + 1) := hge
      · exact hinv.1 p q hpq hqi hq1

/-- The insertion-sort outer loop sorts the whole list, given a sorted
prefix `0..i-1` and sufficient fuel. -/
theorem insOuter_spec : ∀ (fuel : Nat) (l : List CL) (i : Nat), 1 ≤ i →
    (∀ p q, p < q → q < i → ordAt l p ≤ ordAt l q) → l.length ≤ i + fuel →
    (insOuter l i fuel).length = l.length ∧
    ∀ p q, p < q → q < (insOuter l i fuel).length →
      ordAt (insOuter l i fuel) p ≤ ordAt (insOuter l i fuel) q := by
  intro fuel
  induction fuel with
  | zero =>
    intro l i _ hsorted hlen
    simp only [insOuter]
    refine ⟨by first | rfl | trivial, ?_⟩
    intro p q hpq hq
    exact hsorted p q hpq (by omega)
  | succ fuel ih =>
    intro l i h1i hsorted hlen
    unfold insOuter
    by_cases hil : i < l.length
    · simp only [if_pos hil]
      have hinv : InsInv l i i := by
        constructor
        · intro p q hpq hqi hqj
          exact hsorted p q hpq (by omega)
        · intro q hq1 hq2
          exact absurd (hq1.trans_le hq2) (lt_irrefl i)
      have hstep := insInner_spec i l i (le_refl i) hil hinv
      have hnext := ih (insInner l i) (i + 1) (by omega)
        (fun p q hpq hq => hstep.2 p q hpq (by omega))
        (by rw [hstep.1]; omega)
      exact ⟨by rw [hnext.1, hstep.1], hnext.2⟩
    · simp only [if_neg hil]
      refine ⟨by first | rfl | trivial, ?_⟩
      intro p q hpq hq
      exact hsorted p q hpq (by omega)

/-- The embedded `sort.Slice` produces a list ordered by rank. -/
theorem sortSliceCLs_sorted_ordAt (l : List CL) :
    ∀ p q, p < q → q < (sortSliceCLs l).length →
      ordAt (sortSliceCLs l) p ≤ ordAt (sortSliceCLs l) q := by
  unfold sortSliceCLs
  by_cases h : 1 < l.length
  · simp only [if_pos h]
    have hshell : (shellPass l 6 l.length).length = l.length :=
      (shellPass_perm l.length l 6).length_eq
    have hres := insOuter_spec l.length (shellPass l 6 l.length) 1 (le_refl 1)
      (fun p q hpq hq => absurd hpq (by omega))
      (by rw [hshell]; omega)
    exact hres.2
  · simp only [if_neg h]
    intro p q hpq hq
    exact absurd hpq (by omega)

/-! ## Claim C6 about the Order Resolver's initial sort -/

/-- C6, counterexample.  On the batch with ranks `9, 1, 2, 3, 4, 5, 1`
(units numbered 0..6 in batch order), `sort.Slice` — whose stdlib
implementation runs a gap-6 shell pass before the stable insertion sort,
and which is documented to give no stability guarantee — produces unit 6
BEFORE unit 1 although both have rank 1 and unit 1 comes first in the
batch; the tie is NOT broken by original batch position (that would be
the order `1, 6, 2, 3, 4, 5, 0`). -/
theorem c6_counterexample :
    ((sortSliceCLs c6Batch).map (fun cl => (cl.Num, cl.Order)) =
      [(6, 1), (1, 1), (2, 2), (3, 3), (4, 4), (5, 5), (0, 9)]) ∧
    ¬ ((sortSliceCLs c6Batch).map (fun cl => cl.Num) = [1, 6, 2, 3, 4, 5, 0]) :=
  ⟨by decide, by decide⟩

/-- C6, amended: the Order Resolver's initial sort orders ChangeUnits
ascending by rank and is a permutation of the batch; rank ties are
broken in an implementation-defined way (NOT by original batch
position).  Re-running the resolver on the same ranked batch yields an
identical order because the resolver is a pure function of the batch
(there is no other input). -/
theorem c6_sort_ascending (cls : List CL) :
    List.Sorted (fun u v : CL => u.Order ≤ v.Order) (sortSliceCLs cls) ∧
    (sortSliceCLs cls).Perm cls := by
  refine ⟨List.pairwise_iff_getElem.mpr ?_, sortSliceCLs_perm cls⟩
  intro a b ha hb hab
  have hres := sortSliceCLs_sorted_ordAt cls a b hab hb
  rw [ordAt_eq_getElem _ ha, ordAt_eq_getElem _ hb] at hres
  exact hres

/-! ## Lemmas about the Order Resolver's traversal -/

theorem clByNum_spec (cls : List CL) (num j : Nat)
    (h : clByNum cls num = some j) :
    j < cls.length ∧ (cls.getD j default).Num = num := by
  unfold clByNum at h
  have hmem := List.mem_of_find?_eq_some h
  have hp := List.find?_some h
  constructor
  · exact List.mem_range.mp (List.mem_reverse.mp hmem)
  · exact of_decide_eq_true hp

theorem getD_of_lt {α : Type} (l : List α) (d : α) {m : Nat}
    (h : m < l.length) : l.getD m d = l[m] := by
  rw [List.getD_eq_getElem?_getD, List.getElem?_eq_getElem h]
  rfl

theorem getD_append_lt {α : Type} (l1 l2 : List α) (d : α) {m : Nat}
    (h : m < l1.length) : (l1 ++ l2).getD m d = l1.getD m d := by
  rw [getD_of_lt _ _ (by rw [List.length_append]; omega), getD_of_lt _ _ h]
  exact List.getElem_append_left h

theorem getD_append_len {α : Type} (l1 : List α) (x d : α) :
    (l1 ++ [x]).getD l1.length d = x := by
  rw [getD_of_lt _ _ (by simp)]
  exact List.getElem_concat_length _ _ _ rfl _

theorem map_getD_range (l : List CL) :
    (List.range l.length).map (fun i => l.getD i default) = l := by
  apply List.ext_getElem?
  intro m
  rw [List.getElem?_map]
  by_cases hm : m < l.length
  · rw [List.getElem?_range hm, List.getElem?_eq_getElem hm]
    show some (l.getD m default) = some l[m]
    rw [getD_of_lt _ _ hm]
  · have h1 : (List.range l.length)[m]? = none :=
      List.getElem?_eq_none (by rw [List.length_range]; omega)
    have h2 : l[m]? = none := List.getElem?_eq_none (by omega)
    rw [h1, h2]
    rfl

/-- Master invariant lemma for the defunctionalised traversal: a
successful step preserves the state invariant, only appends to the
output, grows the `walking` and `walked` maps, marks only positions that
were not mid-traversal, completes the walked CL, and resolves every
prerequisite of a processed list into `walked`. -/
theorem walkGo_spec : ∀ (fuel : Nat) (cls : List CL) (task : Nat ⊕ List Nat)
    (st st' : WalkSt), walkGo cls fuel task st = some st' →
    WalkInv cls st →
    (∀ i, task = Sum.inl i → i < cls.length) →
    WalkInv cls st' ∧
    (∃ new, st'.order = st.order ++ new) ∧
    (∀ j, j ∈ st.walking → j ∈ st'.walking) ∧
    (∀ j, j ∈ st.walked → j ∈ st'.walked) ∧
    (∀ j, j ∈ st'.walked → j ∈ st.walked ∨ j ∉ st.walking) ∧
    (∀ i, task = Sum.inl i → i ∈ st'.walked) ∧
    (∀ nums, task = Sum.inr nums → ∀ num ∈ nums,
      ∃ k, clByNum cls num = some k ∧ k ∈ st'.walked) := by
  intro fuel
  induction fuel with
  | zero =>
    intro cls task st st' h
    exact absurd h (by simp [walkGo])
  | succ fuel ih =>
    intro cls task st st' h hinv htask
    rcases task with i | nums
    · simp only [walkGo] at h
      by_cases hw : i ∈ st.walked
      · rw [if_pos hw] at h
        injection h with h
        subst h
        refine ⟨hinv, ⟨[], by simp⟩, fun j hj => hj, fun j hj => hj,
          fun j hj => Or.inl hj, ?_, ?_⟩
        · intro i' hi'
          injection hi' with hi'
          subst hi'
          exact hw
        · intro nums hn
          exact absurd hn (by simp)
      · rw [if_neg hw] at h
        by_cases hg : i ∈ st.walking
        · rw [if_pos hg] at h
          exact absurd h (by simp)
        · rw [if_neg hg] at h
          cases hrec : walkGo cls fuel (Sum.inr (cls.getD i default).Prereq)
              { st with walking := i :: st.walking } with
          | none =>
            rw [hrec] at h
            exact absurd h (by simp)
          | some st2 =>
            rw [hrec] at h
            injection h with h
            subst h
            have hinv1 : WalkInv cls { st with walking := i :: st.walking } :=
              hinv
            have IH := ih cls _ _ _ hrec hinv1
              (by intro i' hi'; exact absurd hi' (by simp))
            obtain ⟨⟨hnd2, hiff2, hbnd2, hpb2⟩, ⟨new2, hnew2⟩, hgmono,
              hdmono, hfresh, _, hresolve⟩ := IH
            have hi2 : i ∉ st2.walked := by
              intro hmem
              rcases hfresh i hmem with h1 | h1
              · exact hw h1
              · exact h1 (List.mem_cons_self i st.walking)
            have hilen : i < cls.length := htask i rfl
            have hiord : i ∉ st2.order := fun hmem => hi2 ((hiff2 i).mp hmem)
            refine ⟨⟨?_, ?_, ?_, ?_⟩, ⟨new2 ++ [i], ?_⟩, ?_, ?_, ?_, ?_, ?_⟩
            · exact List.Nodup.append hnd2 (List.nodup_singleton i)
                (by intro a ha hb
                    rw [List.mem_singleton] at hb
                    subst hb
                    exact hiord ha)
            · intro j
              show j ∈ st2.order ++ [i] ↔ j ∈ i :: st2.walked
              rw [List.mem_append, List.mem_singleton, List.mem_cons]
              constructor
              · rintro (hj | hj)
                · exact Or.inr ((hiff2 j).mp hj)
                · exact Or.inl hj
              · rintro (hj | hj)
                · exact Or.inr hj
                · exact Or.inl ((hiff2 j).mpr hj)
            · intro j hj
              rcases List.mem_append.mp hj with hj | hj
              · exact hbnd2 j hj
              · rw [List.mem_singleton] at hj
                subst hj
                exact hilen
            · intro m hm p hp
              rw [List.length_append, List.length_singleton] at hm
              by_cases hmlt : m < st2.order.length
              · rw [getD_append_lt _ _ _ hmlt] at hp
                obtain ⟨k, km, hk1, hk2, hk3⟩ := hpb2 m hmlt p hp
                exact ⟨k, km, hk1, hk2,
                  by rw [getD_append_lt _ _ _ (by omega)]; exact hk3⟩
              · have hmeq : m = st2.order.length := by omega
                subst hmeq
                rw [getD_append_len] at hp
                obtain ⟨k, hk1, hk2⟩ := hresolve _ rfl p hp
                have hkord : k ∈ st2.order := (hiff2 k).mpr hk2
                obtain ⟨km, hkm, hkeq⟩ := List.getElem_of_mem hkord
                refine ⟨k, km, hk1, hkm, ?_⟩
                rw [getD_append_lt _ _ _ hkm, getD_of_lt _ _ hkm]
                exact hkeq
            · show st2.order ++ [i] = st.order ++ (new2 ++ [i])
              rw [hnew2, List.append_assoc]
            · intro j hj
              exact hgmono j (List.mem_cons_of_mem _ hj)
            · intro j hj
              exact List.mem_cons_of_mem _ (hdmono j hj)
            · intro j hj
              rcases List.mem_cons.mp hj with hj | hj
              · subst hj
                exact Or.inr hg
              · rcases hfresh j hj with h1 | h1
                · exact Or.inl h1
                · exact Or.inr (fun hmem => h1 (List.mem_cons_of_mem _ hmem))
            · intro i' hi'
              injection hi' with hi'
              subst hi'
              exact List.mem_cons_self _ _
            · intro nums hn
              exact absurd hn (by simp)
    · cases nums with
      | nil =>
        simp only [walkGo] at h
        injection h with h
        subst h
        refine ⟨hinv, ⟨[], by simp⟩, fun j hj => hj, fun j hj => hj,
          fun j hj => Or.inl hj, ?_, ?_⟩
        · intro i' hi'
          exact absurd hi' (by simp)
        · intro nums hn num hnum
          injection hn with hn
          subst hn
          exact absurd hnum (List.not_mem_nil num)
      | cons num rest =>
        simp only [walkGo] at h
        split at h
        · exact absurd h (by simp)
        · rename_i j hfind
          split at h
          · exact absurd h (by simp)
          · rename_i st2 hrec1
            have hjlen := (clByNum_spec cls num j hfind).1
            have IH1 := ih cls (Sum.inl j) st st2 hrec1 hinv
              (by intro i' hi'; injection hi' with hi'; subst hi'; exact hjlen)
            obtain ⟨hinv2, ⟨new1, hnew1⟩, hg1, hd1, hf1, hjw, _⟩ := IH1
            have IH2 := ih cls (Sum.inr rest) st2 st' h hinv2
              (fun i' hi' => absurd hi' (by simp))
            obtain ⟨hinv3, ⟨new2, hnew2⟩, hg2, hd2, hf2, _, hres2⟩ := IH2
            refine ⟨hinv3,
              ⟨new1 ++ new2, by rw [hnew2, hnew1, List.append_assoc]⟩,
              fun j' hj' => hg2 j' (hg1 j' hj'),
              fun j' hj' => hd2 j' (hd1 j' hj'), ?_,
              fun i' hi' => absurd hi' (by simp), ?_⟩
            · intro j' hj'
              rcases hf2 j' hj' with h1 | h1
              · exact hf1 j' h1
              · exact Or.inr (fun hmem => h1 (hg1 j' hmem))
            · intro nums hn num' hnum'
              injection hn with hn
              subst hn
              rcases List.mem_cons.mp hnum' with h1 | h1
              · subst h1
                exact ⟨j, hfind, hd2 j (hjw j rfl)⟩
              · exact hres2 rest rfl num' h1

theorem walkAll_spec : ∀ (idxs : List Nat) (cls : List CL) (fuel : Nat)
    (st st' : WalkSt), walkAll cls fuel idxs st = some st' →
    (∀ i ∈ idxs, i < cls.length) → WalkInv cls st →
    WalkInv cls st' ∧ (∀ j, j ∈ st.walked → j ∈ st'.walked) ∧
    ∀ i ∈ idxs, i ∈ st'.walked := by
  intro idxs
  induction idxs with
  | nil =>
    intro cls fuel st st' h _ hinv
    simp only [walkAll] at h
    injection h with h
    subst h
    exact ⟨hinv, fun j hj => hj, by simp⟩
  | cons i rest ihl =>
    intro cls fuel st st' h hbnd hinv
    simp only [walkAll] at h
    cases hrec : walkGo cls fuel (Sum.inl i) st with
    | none =>
      rw [hrec] at h
      exact absurd h (by simp)
    | some st2 =>
      rw [hrec] at h
      have IH1 := walkGo_spec fuel cls (Sum.inl i) st st2 hrec hinv
        (by intro i' hi'
            injection hi' with hi'
            subst hi'
            exact hbnd i (List.mem_cons_self _ _))
      obtain ⟨hinv2, _, _, hd1, _, hiw, _⟩ := IH1
      have IH2 := ihl cls fuel st2 st' h
        (fun j hj => hbnd j (List.mem_cons_of_mem _ hj)) hinv2
      obtain ⟨hinv3, hd2, hall⟩ := IH2
      refine ⟨hinv3, fun j hj => hd2 j (hd1 j hj), ?_⟩
      intro j hj
      rcases List.mem_cons.mp hj with h1 | h1
      · subst h1
        exact hd2 j (hiw j rfl)
      · exact hall j h1

/-! ## Claim C5 about the Order Resolver -/

/-- C5: for every batch accepted by the Order Resolver (`orderCLs`
returns a result instead of taking one of the fatal panic paths — cycle,
dangling prerequisite, or the completeness check), the output is a
permutation of the input batch and every prerequisite of each unit
appears strictly before that unit. -/
theorem c5_order_validity (cls out : List CL) (h : orderCLs cls = some out) :
    out.Perm cls ∧
    ∀ (m : Nat) (hm : m < out.length), ∀ p ∈ (out[m]).Prereq,
      ∃ k, ∃ hk : k < out.length, k < m ∧ (out[k]).Num = p := by
  unfold orderCLs at h
  split at h
  · exact absurd h (by simp)
  · rename_i st hwalk
    split at h
    case isFalse => exact absurd h (by simp)
    case isTrue hlen =>
      injection h with h
      subst h
      have hinv0 : WalkInv (sortSliceCLs cls) ⟨[], [], []⟩ := by
        refine ⟨List.nodup_nil, fun j => by simp, by simp, ?_⟩
        intro m hm
        exact absurd hm (by simp)
      have hspec := walkAll_spec _ _ _ _ _ hwalk
        (fun i hi => List.mem_range.mp hi) hinv0
      obtain ⟨⟨hnd, hiff, hbnd, hpb⟩, _, hall⟩ := hspec
      have hsub : st.order ⊆ List.range (sortSliceCLs cls).length :=
        fun j hj => List.mem_range.mpr (hbnd j hj)
      have hsp : List.Subperm st.order (List.range (sortSliceCLs cls).length) :=
        hnd.subperm hsub
      have hperm : st.order.Perm (List.range (sortSliceCLs cls).length) := by
        refine hsp.perm_of_length_le ?_
        rw [List.length_range, hlen]
      constructor
      · have h1 : (st.order.map (fun i => (sortSliceCLs cls).getD i default)).Perm
            ((List.range (sortSliceCLs cls).length).map
              (fun i => (sortSliceCLs cls).getD i default)) :=
          hperm.map _
        rw [map_getD_range (sortSliceCLs cls)] at h1
        exact h1.trans (sortSliceCLs_perm cls)
      · intro m hm p hp
        have hm' : m < st.order.length := by simpa using hm
        have hout_m :
            (st.order.map (fun i => (sortSliceCLs cls).getD i default))[m] =
              (sortSliceCLs cls).getD (st.order.getD m 0) default := by
          rw [List.getElem_map, getD_of_lt _ _ hm']
        rw [hout_m] at hp
        obtain ⟨k, km, hk1, hk2, hk3⟩ := hpb m hm' p hp
        have hkm' : km < st.order.length := by omega
        refine ⟨km, by simpa using hkm', hk2, ?_⟩
        have hout_km :
            (st.order.map (fun i => (sortSliceCLs cls).getD i default))[km] =
              (sortSliceCLs cls).getD (st.order.getD km 0) default := by
          rw [List.getElem_map, getD_of_lt _ _ hkm']
        rw [hout_km, hk3]
        exact (clByNum_spec _ p k hk1).2

/-- Witness for `c5_order_validity`: the spec's running example resolves
to `C, B, A` and satisfies the order-validity conclusion. -/
theorem c5_order_validity_witness :
    orderCLs c5Batch = some c5Expected ∧
    (c5Expected.Perm c5Batch ∧
      ∀ (m : Nat) (hm : m < c5Expected.length), ∀ p ∈ (c5Expected[m]).Prereq,
        ∃ k, ∃ hk : k < c5Expected.length, k < m ∧ (c5Expected[k]).Num = p) := by
  have h : orderCLs c5Batch = some c5Expected := by decide
  exact ⟨h, c5_order_validity c5Batch c5Expected h⟩

/-! ## Claim C10 about `treeAndParentOfCommit` -/

/-- Moving one header line into `lastHeader`'s scope is the same as
folding it into the default value. -/
theorem lastHeader_cons_getD (pre line : String) (ls : List String) (d : String) :
    (lastHeader pre (line :: ls)).getD d =
      (lastHeader pre ls).getD
        (if hasPre pre line then dropPre pre line else d) := by
  by_cases hp : hasPre pre line
  · have hfil : (line :: ls).filter (fun l => hasPre pre l) =
        line :: ls.filter (fun l => hasPre pre l) := by
      simp [List.filter, hp]
    unfold lastHeader
    rw [hfil, if_pos hp]
    cases hfl : ls.filter (fun l => hasPre pre l) with
    | nil => simp
    | cons a l =>
      rw [List.getLast?_cons_cons]
      cases hgl : (a :: l).getLast? with
      | none =>
        rw [List.getLast?_eq_none_iff] at hgl
        exact absurd hgl (List.cons_ne_nil a l)
      | some v => simp
  · have hfil : (line :: ls).filter (fun l => hasPre pre l) =
        ls.filter (fun l => hasPre pre l) := by
      simp [List.filter, hp]
    unfold lastHeader
    rw [hfil, if_neg hp]

/-- The scanning loop computes, for each of the two headers, the value of
the last matching line before the first empty line (falling back to the
accumulator when there is none). -/
theorem scanTreeParent_spec (lines : List String) :
    ∀ t0 p0 : String,
    scanTreeParent lines t0 p0 =
      ((lastHeader "tree " (lines.takeWhile (fun l => l ≠ ""))).getD t0,
       (lastHeader "parent " (lines.takeWhile (fun l => l ≠ ""))).getD p0) := by
  induction lines with
  | nil => intro t0 p0; simp [scanTreeParent, lastHeader]
  | cons line rest ih =>
    intro t0 p0
    by_cases hempty : line = ""
    · subst hempty
      have htw : (("" : String) :: rest).takeWhile (fun l => l ≠ "") = [] := by
        simp [List.takeWhile]
      rw [htw]
      have h1 : hasPre "tree " "" = false := by decide
      have h2 : hasPre "parent " "" = false := by decide
      simp [scanTreeParent, h1, h2, lastHeader]
    · have htw : (line :: rest).takeWhile (fun l => l ≠ "") =
          line :: rest.takeWhile (fun l => l ≠ "") := by
        simp [List.takeWhile, hempty]
      have hscan : scanTreeParent (line :: rest) t0 p0 =
          scanTreeParent rest
            (if hasPre "tree " line then dropPre "tree " line else t0)
            (if hasPre "parent " line then dropPre "parent " line else p0) := by
        simp [scanTreeParent, hempty]
      rw [htw, hscan, ih]
      rw [lastHeader_cons_getD, lastHeader_cons_getD]

/-- C10: when `treeAndParentOfCommit` returns, the tree is the value of
the (last) `tree ` header and the parent is the value of the LAST
`parent ` header appearing before the first empty line of the commit
object (so for a merge commit the fingerprint's parent is the final
listed parent); whenever either header is absent before the first empty
line — in particular for a parentless root commit — it fails fatally
(modelled as `none`, the `log.Panicf` path). -/
theorem c10_tree_parent_reader (out : String) :
    (∀ t p, treeAndParentOfCommit out = some (t, p) →
      lastHeader "tree " (headerLines out) = some t ∧
      lastHeader "parent " (headerLines out) = some p) ∧
    ((lastHeader "tree " (headerLines out) = none ∨
        lastHeader "parent " (headerLines out) = none) →
      treeAndParentOfCommit out = none) := by
  have hscan1 : (scanTreeParent (splitLines out) "" "").1 =
      (lastHeader "tree " (headerLines out)).getD "" := by
    rw [scanTreeParent_spec]
    rfl
  have hscan2 : (scanTreeParent (splitLines out) "" "").2 =
      (lastHeader "parent " (headerLines out)).getD "" := by
    rw [scanTreeParent_spec]
    rfl
  constructor
  · intro t p h
    unfold treeAndParentOfCommit at h
    by_cases hc : (scanTreeParent (splitLines out) "" "").1 = "" ∨
        (scanTreeParent (splitLines out) "" "").2 = ""
    · rw [if_pos hc] at h
      exact absurd h (by simp)
    · rw [if_neg hc] at h
      push_neg at hc
      obtain ⟨hc1, hc2⟩ := hc
      injection h with h'
      constructor
      · cases hgl : lastHeader "tree " (headerLines out) with
        | none =>
          exfalso
          apply hc1
          rw [hscan1, hgl]
          rfl
        | some v =>
          have hv : (scanTreeParent (splitLines out) "" "").1 = v := by
            rw [hscan1, hgl]
            rfl
          rw [← hv, h']
      · cases hgl : lastHeader "parent " (headerLines out) with
        | none =>
          exfalso
          apply hc2
          rw [hscan2, hgl]
          rfl
        | some v =>
          have hv : (scanTreeParent (splitLines out) "" "").2 = v := by
            rw [hscan2, hgl]
            rfl
          rw [← hv, h']
  · intro hnone
    unfold treeAndParentOfCommit
    have hdis : (scanTreeParent (splitLines out) "" "").1 = "" ∨
        (scanTreeParent (splitLines out) "" "").2 = "" := by
      rcases hnone with h | h
      · left; rw [hscan1, h]; rfl
      · right; rw [hscan2, h]; rfl
    rw [if_pos hdis]

/-- Witness for `c10_tree_parent_reader`: a merge commit whose returned
parent is the final listed parent (a `parent ` line after the first empty
line is ignored), and a parentless root commit on which the reader fails. -/
theorem c10_tree_parent_reader_witness :
    (treeAndParentOfCommit "tree T\nparent P1\nparent P2\nauthor a\n\nparent FAKE" =
        some ("T", "P2") ∧
      lastHeader "tree "
        (headerLines "tree T\nparent P1\nparent P2\nauthor a\n\nparent FAKE") =
        some "T" ∧
      lastHeader "parent "
        (headerLines "tree T\nparent P1\nparent P2\nauthor a\n\nparent FAKE") =
        some "P2") ∧
    (lastHeader "parent " (headerLines "tree T\nauthor a\n\nbody") = none ∧
      treeAndParentOfCommit "tree T\nauthor a\n\nbody" = none) := by
  constructor
  · refine ⟨by decide, ?_⟩
    exact (c10_tree_parent_reader
      "tree T\nparent P1\nparent P2\nauthor a\n\nparent FAKE").1 "T" "P2" (by decide)
  · refine ⟨by decide, ?_⟩
    exact (c10_tree_parent_reader "tree T\nauthor a\n\nbody").2 (Or.inr (by decide))

/-! ## Lemmas about the Integration Driver -/

theorem buildAndPublish_skip (env : GitEnv) (st : DriverState) (cl : CL)
    (head : String) (c : ChangeInfo) (evts : List Event)
    (h : 1 ≤ labelValue c "TryBot-Result") :
    buildAndPublish env st cl head (some c) evts =
      (⟨head, c.CurrentRef, c.CurrentRevision⟩,
        { cl with ReleaseBranchCL := c.ChangeNumber,
                  ReleaseBranchGerrit := some c },
        Status.Reused,
        evts ++ (if labelValue c "Code-Review" < 2
          then [Event.reviewWarning cl.Num] else [])) := by
  unfold buildAndPublish
  simp [h]

theorem buildAndPublish_run_some (env : GitEnv) (st : DriverState) (cl : CL)
    (head : String) (c : ChangeInfo) (evts : List Event)
    (hns : ¬ 1 ≤ labelValue c "TryBot-Result")
    (hok : env.makeBashOK head = true) :
    buildAndPublish env st cl head (some c) evts =
      (⟨head, c.CurrentRef, c.CurrentRevision⟩,
        { cl with ReleaseBranchCL := c.ChangeNumber,
                  ReleaseBranchGerrit := some c },
        Status.Reused,
        (evts ++ [Event.buildRun head]) ++
          (if labelValue c "Code-Review" < 2
            then [Event.reviewWarning cl.Num] else [])) := by
  unfold buildAndPublish
  simp [hns, hok]

theorem buildAndPublish_run_none (env : GitEnv) (st : DriverState) (cl : CL)
    (head : String) (evts : List Event)
    (hok : env.makeBashOK head = true) :
    buildAndPublish env st cl head none evts =
      (⟨head, (env.mailChange head).CurrentRef,
          (env.mailChange head).CurrentRevision⟩,
        { cl with ReleaseBranchCL := (env.mailChange head).ChangeNumber,
                  ReleaseBranchGerrit := some (env.mailChange head) },
        Status.Uploaded,
        (evts ++ [Event.buildRun head]) ++ [Event.mailed cl.Num head] ++
          (if labelValue (env.mailChange head) "Code-Review" < 2
            then [Event.reviewWarning cl.Num] else [])) := by
  unfold buildAndPublish
  simp [hok]

theorem buildAndPublish_fail_none (env : GitEnv) (st : DriverState) (cl : CL)
    (head : String) (evts : List Event)
    (hfail : env.makeBashOK head = false) :
    buildAndPublish env st cl head none evts =
      ({ st with head := env.parentOf head }, cl, Status.BuildFailed,
        evts ++ [Event.buildRun head,
          Event.buildFailed cl.Num st.lastRef st.lastCommit cl.Ref cl.Commit]) := by
  unfold buildAndPublish
  simp [hfail]

theorem buildAndPublish_fail_some (env : GitEnv) (st : DriverState) (cl : CL)
    (head : String) (c : ChangeInfo) (evts : List Event)
    (hns : ¬ 1 ≤ labelValue c "TryBot-Result")
    (hfail : env.makeBashOK head = false) :
    buildAndPublish env st cl head (some c) evts =
      ({ st with head := env.parentOf head }, cl, Status.BuildFailed,
        evts ++ [Event.buildRun head,
          Event.buildFailed cl.Num st.lastRef st.lastCommit cl.Ref cl.Commit]) := by
  unfold buildAndPublish
  simp [hns, hfail]

theorem buildAndPublish_status (env : GitEnv) (st : DriverState) (cl : CL)
    (head : String) (change : Option ChangeInfo) (evts : List Event) :
    (buildAndPublish env st cl head change evts).2.2.1 = Status.BuildFailed ∨
    (buildAndPublish env st cl head change evts).2.2.1 = Status.Reused ∨
    (buildAndPublish env st cl head change evts).2.2.1 = Status.Uploaded := by
  cases change with
  | some c =>
    by_cases hns : 1 ≤ labelValue c "TryBot-Result"
    · rw [buildAndPublish_skip env st cl head c evts hns]
      right; left; rfl
    · cases hok : env.makeBashOK head with
      | true =>
        rw [buildAndPublish_run_some env st cl head c evts hns hok]
        right; left; rfl
      | false =>
        rw [buildAndPublish_fail_some env st cl head c evts hns hok]
        left; rfl
  | none =>
    cases hok : env.makeBashOK head with
    | true =>
      rw [buildAndPublish_run_none env st cl head evts hok]
      right; right; rfl
    | false =>
      rw [buildAndPublish_fail_none env st cl head evts hok]
      left; rfl

theorem cherryPickOne_skip (env : GitEnv) (st : DriverState) (cl : CL)
    (he : cl.Commit = "") :
    cherryPickOne env st cl =
      (st, cl, Status.Skipped, [Event.missingCommit cl.Num]) := by
  simp only [cherryPickOne, if_pos he]

theorem cherryPickOne_conflict (env : GitEnv) (st : DriverState) (cl : CL)
    (he : cl.Commit ≠ "") (hp : env.cherryPick st.head cl.Commit = none) :
    cherryPickOne env st cl = (st, cl, Status.Rejected,
      [Event.applyConflict cl.Num st.lastRef st.lastCommit cl.Ref cl.Commit]) := by
  simp only [cherryPickOne, if_neg he, hp]

theorem cherryPickOne_match (env : GitEnv) (st : DriverState) (cl : CL)
    (h0 : String) (cand : ChangeInfo) (he : cl.Commit ≠ "")
    (hp : env.cherryPick st.head cl.Commit = some h0)
    (hg : cl.ReleaseBranchGerrit = some cand)
    (hfp : env.treeOf (env.refTip cand.CurrentRef) = env.treeOf (env.amend h0) ∧
      env.parentOf (env.refTip cand.CurrentRef) = env.parentOf (env.amend h0)) :
    cherryPickOne env st cl =
      buildAndPublish env st cl (env.refTip cand.CurrentRef) (some cand)
        [Event.resetToCandidate cl.Num (env.refTip cand.CurrentRef)] := by
  simp only [cherryPickOne, if_neg he, hp, hg, if_pos hfp]

theorem cherryPickOne_mismatch (env : GitEnv) (st : DriverState) (cl : CL)
    (h0 : String) (cand : ChangeInfo) (he : cl.Commit ≠ "")
    (hp : env.cherryPick st.head cl.Commit = some h0)
    (hg : cl.ReleaseBranchGerrit = some cand)
    (hfp : ¬ (env.treeOf (env.refTip cand.CurrentRef) = env.treeOf (env.amend h0) ∧
      env.parentOf (env.refTip cand.CurrentRef) = env.parentOf (env.amend h0))) :
    cherryPickOne env st cl =
      buildAndPublish env st cl (env.amend h0) none [] := by
  simp only [cherryPickOne, if_neg he, hp, hg, if_neg hfp]

theorem cherryPickOne_nocand (env : GitEnv) (st : DriverState) (cl : CL)
    (h0 : String) (he : cl.Commit ≠ "")
    (hp : env.cherryPick st.head cl.Commit = some h0)
    (hg : cl.ReleaseBranchGerrit = none) :
    cherryPickOne env st cl =
      buildAndPublish env st cl (env.amend h0) none [] := by
  simp only [cherryPickOne, if_neg he, hp, hg]

/-- A unit with a non-empty commit is never skipped: integration is
attempted regardless of its rank. -/
theorem cherryPickOne_status_ne_skipped (env : GitEnv) (st : DriverState)
    (cl : CL) (he : cl.Commit ≠ "") :
    (cherryPickOne env st cl).2.2.1 ≠ Status.Skipped := by
  cases hp : env.cherryPick st.head cl.Commit with
  | none =>
    rw [cherryPickOne_conflict env st cl he hp]
    simp
  | some h0 =>
    cases hg : cl.ReleaseBranchGerrit with
    | none =>
      rw [cherryPickOne_nocand env st cl h0 he hp hg]
      rcases buildAndPublish_status env st cl (env.amend h0) none [] with
        h | h | h <;> simp [h]
    | some cand =>
      by_cases hfp : env.treeOf (env.refTip cand.CurrentRef) =
          env.treeOf (env.amend h0) ∧
          env.parentOf (env.refTip cand.CurrentRef) =
            env.parentOf (env.amend h0)
      · rw [cherryPickOne_match env st cl h0 cand he hp hg hfp]
        rcases buildAndPublish_status env st cl (env.refTip cand.CurrentRef)
          (some cand) [Event.resetToCandidate cl.Num
            (env.refTip cand.CurrentRef)] with h | h | h <;> simp [h]
      · rw [cherryPickOne_mismatch env st cl h0 cand he hp hg hfp]
        rcases buildAndPublish_status env st cl (env.amend h0) none [] with
          h | h | h <;> simp [h]

theorem head_update_eta (st : DriverState) (x : String) (h : x = st.head) :
    ({ st with head := x } : DriverState) = st := by
  cases st
  simp_all

theorem not_mailed_warn (n : Nat) (hd : String) (num : Nat) (b : Prop)
    [Decidable b] :
    Event.mailed n hd ∉ (if b then [Event.reviewWarning num] else []) := by
  split <;> simp

theorem not_buildRun_warn (hd : String) (num : Nat) (b : Prop) [Decidable b] :
    Event.buildRun hd ∉ (if b then [Event.reviewWarning num] else []) := by
  split <;> simp

/-! ## Claim C1 about the fingerprint-reuse path -/

/-- C1, counterexample.  A unit whose freshly applied local commit has a
`(tree, parent)` fingerprint equal to its known remote candidate's
current revision, where the candidate's `TryBot-Result` vote is `0`: the
driver DOES run `make.bash` (the build gate is skipped only when the
vote is at least `+1`), contradicting "performs no build validation".
The unit does end `Reused` and nothing is mailed. -/
theorem c1_counterexample :
    c1CL.ReleaseBranchGerrit = some c1Cand ∧
    c1Env.cherryPick c1St.head c1CL.Commit = some "local5" ∧
    c1Env.treeOf (c1Env.refTip c1Cand.CurrentRef) =
      c1Env.treeOf (c1Env.amend "local5") ∧
    c1Env.parentOf (c1Env.refTip c1Cand.CurrentRef) =
      c1Env.parentOf (c1Env.amend "local5") ∧
    (cherryPickOne c1Env c1St c1CL).2.2.1 = Status.Reused ∧
    Event.buildRun "rev77" ∈ (cherryPickOne c1Env c1St c1CL).2.2.2 :=
  ⟨by decide, by decide, by decide, by decide, by decide, by decide⟩

/-- C1, amended: on a fingerprint match the driver resets the branch tip
to the candidate's commit and makes no upload call for that unit, but
build validation is skipped only when the candidate carries
`TryBot-Result ≥ +1` (then the unit ends `Reused` with no `make.bash`
run); otherwise `make.bash` IS run — the unit ends `Reused` if it
succeeds and `BuildFailed` (tip rolled back) if it fails. -/
theorem c1_fingerprint_reuse (env : GitEnv) (st : DriverState) (cl : CL)
    (cand : ChangeInfo) (h0 : String)
    (hcand : cl.ReleaseBranchGerrit = some cand)
    (hcommit : cl.Commit ≠ "")
    (hpick : env.cherryPick st.head cl.Commit = some h0)
    (htree : env.treeOf (env.refTip cand.CurrentRef) =
      env.treeOf (env.amend h0))
    (hpar : env.parentOf (env.refTip cand.CurrentRef) =
      env.parentOf (env.amend h0)) :
    (∀ n hd, Event.mailed n hd ∉ (cherryPickOne env st cl).2.2.2) ∧
    Event.resetToCandidate cl.Num (env.refTip cand.CurrentRef) ∈
      (cherryPickOne env st cl).2.2.2 ∧
    (1 ≤ labelValue cand "TryBot-Result" →
      (cherryPickOne env st cl).2.2.1 = Status.Reused ∧
      (cherryPickOne env st cl).1.head = env.refTip cand.CurrentRef ∧
      ∀ hd, Event.buildRun hd ∉ (cherryPickOne env st cl).2.2.2) ∧
    (¬ 1 ≤ labelValue cand "TryBot-Result" →
      Event.buildRun (env.refTip cand.CurrentRef) ∈
        (cherryPickOne env st cl).2.2.2 ∧
      (env.makeBashOK (env.refTip cand.CurrentRef) = true →
        (cherryPickOne env st cl).2.2.1 = Status.Reused ∧
        (cherryPickOne env st cl).1.head = env.refTip cand.CurrentRef) ∧
      (env.makeBashOK (env.refTip cand.CurrentRef) = false →
        (cherryPickOne env st cl).2.2.1 = Status.BuildFailed ∧
        (cherryPickOne env st cl).1.head =
          env.parentOf (env.refTip cand.CurrentRef))) := by
  rw [cherryPickOne_match env st cl h0 cand hcommit hpick hcand ⟨htree, hpar⟩]
  by_cases hskip : 1 ≤ labelValue cand "TryBot-Result"
  · rw [buildAndPublish_skip env st cl _ cand _ hskip]
    refine ⟨?_, ?_, fun _ => ⟨rfl, rfl, ?_⟩, fun hn => absurd hskip hn⟩
    · intro n hd hmem
      rcases List.mem_append.mp hmem with hmem | hmem
      · simp at hmem
      · exact not_mailed_warn n hd cl.Num _ hmem
    · exact List.mem_append.mpr (Or.inl (List.mem_singleton.mpr rfl))
    · intro hd hmem
      rcases List.mem_append.mp hmem with hmem | hmem
      · simp at hmem
      · exact not_buildRun_warn hd cl.Num _ hmem
  · cases hok : env.makeBashOK (env.refTip cand.CurrentRef) with
    | true =>
      rw [buildAndPublish_run_some env st cl _ cand _ hskip hok]
      refine ⟨?_, ?_, fun hn => absurd hn hskip,
        fun _ => ⟨?_, fun _ => ⟨rfl, rfl⟩, fun hc => absurd hc (by simp)⟩⟩
      · intro n hd hmem
        rcases List.mem_append.mp hmem with hmem | hmem
        · rcases List.mem_append.mp hmem with hmem | hmem <;> simp at hmem
        · exact not_mailed_warn n hd cl.Num _ hmem
      · exact List.mem_append.mpr (Or.inl (List.mem_append.mpr
          (Or.inl (List.mem_singleton.mpr rfl))))
      · exact List.mem_append.mpr (Or.inl (List.mem_append.mpr
          (Or.inr (List.mem_singleton.mpr rfl))))
    | false =>
      rw [buildAndPublish_fail_some env st cl _ cand _ hskip hok]
      refine ⟨?_, ?_, fun hn => absurd hn hskip,
        fun _ => ⟨?_, fun hc => absurd hc (by simp), fun _ => ⟨rfl, rfl⟩⟩⟩
      · intro n hd hmem
        rcases List.mem_append.mp hmem with hmem | hmem <;> simp at hmem
      · exact List.mem_append.mpr (Or.inl (List.mem_singleton.mpr rfl))
      · exact List.mem_append.mpr (Or.inr (by simp))

/-- Witness for `c1_fingerprint_reuse`: the trusted candidate `c1wCand`
(`TryBot-Result = 1`) is adopted with no build validation and no
upload. -/
theorem c1_fingerprint_reuse_witness :
    (c1wCL.ReleaseBranchGerrit = some c1wCand ∧ c1wCL.Commit ≠ "" ∧
      c1Env.cherryPick c1St.head c1wCL.Commit = some "local5" ∧
      c1Env.treeOf (c1Env.refTip c1wCand.CurrentRef) =
        c1Env.treeOf (c1Env.amend "local5") ∧
      c1Env.parentOf (c1Env.refTip c1wCand.CurrentRef) =
        c1Env.parentOf (c1Env.amend "local5")) ∧
    ((∀ n hd, Event.mailed n hd ∉ (cherryPickOne c1Env c1St c1wCL).2.2.2) ∧
      Event.resetToCandidate c1wCL.Num (c1Env.refTip c1wCand.CurrentRef) ∈
        (cherryPickOne c1Env c1St c1wCL).2.2.2 ∧
      (1 ≤ labelValue c1wCand "TryBot-Result" →
        (cherryPickOne c1Env c1St c1wCL).2.2.1 = Status.Reused ∧
        (cherryPickOne c1Env c1St c1wCL).1.head =
          c1Env.refTip c1wCand.CurrentRef ∧
        ∀ hd, Event.buildRun hd ∉ (cherryPickOne c1Env c1St c1wCL).2.2.2) ∧
      (¬ 1 ≤ labelValue c1wCand "TryBot-Result" →
        Event.buildRun (c1Env.refTip c1wCand.CurrentRef) ∈
          (cherryPickOne c1Env c1St c1wCL).2.2.2 ∧
        (c1Env.makeBashOK (c1Env.refTip c1wCand.CurrentRef) = true →
          (cherryPickOne c1Env c1St c1wCL).2.2.1 = Status.Reused ∧
          (cherryPickOne c1Env c1St c1wCL).1.head =
            c1Env.refTip c1wCand.CurrentRef) ∧
        (c1Env.makeBashOK (c1Env.refTip c1wCand.CurrentRef) = false →
          (cherryPickOne c1Env c1St c1wCL).2.2.1 = Status.BuildFailed ∧
          (cherryPickOne c1Env c1St c1wCL).1.head =
            c1Env.parentOf (c1Env.refTip c1wCand.CurrentRef)))) :=
  ⟨⟨by decide, by decide, by decide, by decide, by decide⟩,
    c1_fingerprint_reuse c1Env c1St c1wCL c1wCand "local5" (by decide)
      (by decide) (by decide) (by decide) (by decide)⟩

/-! ## Claim C8 about partial-failure isolation -/

/-- In a failing build/publish phase whose rollback target is the
pre-apply tip, the driver state is fully restored, the unit record is
untouched, and the failure report carries the reproduction sequence. -/
theorem buildAndPublish_fail_inv (env : GitEnv) (st : DriverState) (cl : CL)
    (head : String) (change : Option ChangeInfo) (evts : List Event)
    (hhead : env.parentOf head = st.head)
    (hfail : (buildAndPublish env st cl head change evts).2.2.1 =
        Status.Rejected ∨
      (buildAndPublish env st cl head change evts).2.2.1 =
        Status.BuildFailed) :
    (buildAndPublish env st cl head change evts).1 = st ∧
    (buildAndPublish env st cl head change evts).2.1 = cl ∧
    Event.buildFailed cl.Num st.lastRef st.lastCommit cl.Ref cl.Commit ∈
      (buildAndPublish env st cl head change evts).2.2.2 ∧
    (buildAndPublish env st cl head change evts).2.2.1 =
      Status.BuildFailed := by
  cases change with
  | some c =>
    by_cases hns : 1 ≤ labelValue c "TryBot-Result"
    · rw [buildAndPublish_skip env st cl head c evts hns] at hfail
      exact absurd hfail (by rintro (h | h) <;> simp at h)
    · cases hok : env.makeBashOK head with
      | true =>
        rw [buildAndPublish_run_some env st cl head c evts hns hok] at hfail
        exact absurd hfail (by rintro (h | h) <;> simp at h)
      | false =>
        rw [buildAndPublish_fail_some env st cl head c evts hns hok]
        refine ⟨head_update_eta st _ hhead, rfl, ?_, rfl⟩
        exact List.mem_append.mpr (Or.inr (by simp))
  | none =>
    cases hok : env.makeBashOK head with
    | true =>
      rw [buildAndPublish_run_none env st cl head evts hok] at hfail
      exact absurd hfail (by rintro (h | h) <;> simp at h)
    | false =>
      rw [buildAndPublish_fail_none env st cl head evts hok]
      refine ⟨head_update_eta st _ hhead, rfl, ?_, rfl⟩
      exact List.mem_append.mpr (Or.inr (by simp))

/-- C8: when a unit fails with an apply conflict or a build-validation
failure, the driver restores the tip to its pre-apply state
(`cherry-pick --abort`, or `reset --hard HEAD^` which is the pre-apply
tip), records the failure with the reproduction sequence (base ref,
current tip, source ref, content id), leaves the unit record — and hence
every other unit's state — unchanged, and still attempts all subsequent
units against the restored tip. -/
theorem c8_partial_failure_isolation (env : GitEnv) (st : DriverState)
    (cl : CL) (rest : List CL)
    (hparent : ∀ tip c hh, env.cherryPick tip c = some hh →
      env.parentOf (env.amend hh) = tip)
    (hfail : (cherryPickOne env st cl).2.2.1 = Status.Rejected ∨
      (cherryPickOne env st cl).2.2.1 = Status.BuildFailed) :
    (cherryPickOne env st cl).1 = st ∧
    (cherryPickOne env st cl).2.1 = cl ∧
    ((cherryPickOne env st cl).2.2.1 = Status.Rejected →
      Event.applyConflict cl.Num st.lastRef st.lastCommit cl.Ref cl.Commit ∈
        (cherryPickOne env st cl).2.2.2) ∧
    ((cherryPickOne env st cl).2.2.1 = Status.BuildFailed →
      Event.buildFailed cl.Num st.lastRef st.lastCommit cl.Ref cl.Commit ∈
        (cherryPickOne env st cl).2.2.2) ∧
    cherryPickList env st (cl :: rest) =
      ((cherryPickList env st rest).1,
        ((cherryPickOne env st cl).2.1, (cherryPickOne env st cl).2.2.1) ::
          (cherryPickList env st rest).2.1,
        (cherryPickOne env st cl).2.2.2 ++ (cherryPickList env st rest).2.2) := by
  have hc : (cherryPickOne env st cl).1 = st ∧
      (cherryPickOne env st cl).2.1 = cl ∧
      ((cherryPickOne env st cl).2.2.1 = Status.Rejected →
        Event.applyConflict cl.Num st.lastRef st.lastCommit cl.Ref cl.Commit ∈
          (cherryPickOne env st cl).2.2.2) ∧
      ((cherryPickOne env st cl).2.2.1 = Status.BuildFailed →
        Event.buildFailed cl.Num st.lastRef st.lastCommit cl.Ref cl.Commit ∈
          (cherryPickOne env st cl).2.2.2) := by
    by_cases he : cl.Commit = ""
    · exfalso
      rcases hfail with h | h <;>
        simp [cherryPickOne_skip env st cl he] at h
    · cases hp : env.cherryPick st.head cl.Commit with
      | none =>
        rw [cherryPickOne_conflict env st cl he hp]
        exact ⟨rfl, rfl, fun _ => List.mem_singleton.mpr rfl,
          fun hb => absurd hb (by simp)⟩
      | some h0 =>
        have hpar0 : env.parentOf (env.amend h0) = st.head := hparent _ _ _ hp
        cases hg : cl.ReleaseBranchGerrit with
        | none =>
          rw [cherryPickOne_nocand env st cl h0 he hp hg] at hfail ⊢
          obtain ⟨h1, h2, h3, h4⟩ :=
            buildAndPublish_fail_inv env st cl (env.amend h0) none [] hpar0 hfail
          exact ⟨h1, h2, fun hr => absurd (h4.symm.trans hr) (by decide),
            fun _ => h3⟩
        | some cand =>
          by_cases hfp : env.treeOf (env.refTip cand.CurrentRef) =
              env.treeOf (env.amend h0) ∧
              env.parentOf (env.refTip cand.CurrentRef) =
                env.parentOf (env.amend h0)
          · rw [cherryPickOne_match env st cl h0 cand he hp hg hfp] at hfail ⊢
            obtain ⟨h1, h2, h3, h4⟩ :=
              buildAndPublish_fail_inv env st cl (env.refTip cand.CurrentRef)
                (some cand) [Event.resetToCandidate cl.Num
                  (env.refTip cand.CurrentRef)]
                (by rw [hfp.2]; exact hpar0) hfail
            exact ⟨h1, h2, fun hr => absurd (h4.symm.trans hr) (by decide),
              fun _ => h3⟩
          · rw [cherryPickOne_mismatch env st cl h0 cand he hp hg hfp] at hfail ⊢
            obtain ⟨h1, h2, h3, h4⟩ :=
              buildAndPublish_fail_inv env st cl (env.amend h0) none [] hpar0
                hfail
            exact ⟨h1, h2, fun hr => absurd (h4.symm.trans hr) (by decide),
              fun _ => h3⟩
  refine ⟨hc.1, hc.2.1, hc.2.2.1, hc.2.2.2, ?_⟩
  simp only [cherryPickList]
  rw [hc.1]

/-- Witness for `c8_partial_failure_isolation`: a conflicting unit is
recorded and rolled back, and the following unit is still attempted. -/
theorem c8_partial_failure_isolation_witness :
    ((∀ tip c hh, c8Env.cherryPick tip c = some hh →
        c8Env.parentOf (c8Env.amend hh) = tip) ∧
      ((cherryPickOne c8Env c8St c8CL).2.2.1 = Status.Rejected ∨
        (cherryPickOne c8Env c8St c8CL).2.2.1 = Status.BuildFailed)) ∧
    ((cherryPickOne c8Env c8St c8CL).1 = c8St ∧
      (cherryPickOne c8Env c8St c8CL).2.1 = c8CL ∧
      ((cherryPickOne c8Env c8St c8CL).2.2.1 = Status.Rejected →
        Event.applyConflict c8CL.Num c8St.lastRef c8St.lastCommit c8CL.Ref
            c8CL.Commit ∈ (cherryPickOne c8Env c8St c8CL).2.2.2) ∧
      ((cherryPickOne c8Env c8St c8CL).2.2.1 = Status.BuildFailed →
        Event.buildFailed c8CL.Num c8St.lastRef c8St.lastCommit c8CL.Ref
            c8CL.Commit ∈ (cherryPickOne c8Env c8St c8CL).2.2.2) ∧
      cherryPickList c8Env c8St (c8CL :: [c8CL2]) =
        ((cherryPickList c8Env c8St [c8CL2]).1,
          ((cherryPickOne c8Env c8St c8CL).2.1,
            (cherryPickOne c8Env c8St c8CL).2.2.1) ::
            (cherryPickList c8Env c8St [c8CL2]).2.1,
          (cherryPickOne c8Env c8St c8CL).2.2.2 ++
            (cherryPickList c8Env c8St [c8CL2]).2.2)) :=
  ⟨⟨fun _ _ _ h => Option.noConfusion h, Or.inl (by decide)⟩,
    c8_partial_failure_isolation c8Env c8St c8CL [c8CL2]
      (fun _ _ _ h => Option.noConfusion h) (Or.inl (by decide))⟩

/-! ## Claim C7 about units with an unresolved rank -/

/-- An accepted resolver run returns a permutation of its input batch. -/
theorem orderCLs_perm (cls out : List CL) (h : orderCLs cls = some out) :
    out.Perm cls := by
  unfold orderCLs at h
  split at h
  · exact absurd h (by simp)
  · rename_i st hwalk
    split at h
    case isFalse => exact absurd h (by simp)
    case isTrue hlen =>
      injection h with h
      subst h
      have hinv0 : WalkInv (sortSliceCLs cls) ⟨[], [], []⟩ := by
        refine ⟨List.nodup_nil, fun j => by simp, by simp, ?_⟩
        intro m hm
        exact absurd hm (by simp)
      obtain ⟨⟨hnd, hiff, hbnd, hpb⟩, _, hall⟩ := walkAll_spec _ _ _ _ _ hwalk
        (fun i hi => List.mem_range.mp hi) hinv0
      have hsub : st.order ⊆ List.range (sortSliceCLs cls).length :=
        fun j hj => List.mem_range.mpr (hbnd j hj)
      have hperm : st.order.Perm (List.range (sortSliceCLs cls).length) := by
        refine (hnd.subperm hsub).perm_of_length_le ?_
        rw [List.length_range, hlen]
      have h1 := hperm.map (fun i => (sortSliceCLs cls).getD i default)
      rw [map_getD_range (sortSliceCLs cls)] at h1
      exact h1.trans (sortSliceCLs_perm cls)

/-- C7, counterexample.  The unit `c7CL`'s commit `u` is found in none of
the scanned references, so its rank stays at the sentinel `-1` — yet it
is NOT failed: it flows through ordering (it is the resolver's output)
and into integration, where its cherry-pick is attempted, succeeds, and
the unit is even built and uploaded. -/
theorem c7_counterexample :
    (gitFetchCLs c7Hist "master" "rel" [c7CL]).map (fun cl => cl.Order) =
      [-1] ∧
    (orderCLs (gitFetchCLs c7Hist "master" "rel" [c7CL])).map
      (fun l => l.map (fun cl => cl.Num)) = some [3] ∧
    (releasePipeline c7Hist "master" "rel" c7Env "m" [c7CL]).map
      (fun r => r.2.1.map (fun p => (p.1.Num, p.2))) =
      some [(3, Status.Uploaded)] :=
  ⟨by decide, by decide, by decide⟩

/-- C7, amended: a ChangeUnit whose `contentRef` is found in none of the
scanned references keeps the sentinel rank `-1` and is NOT failed by the
Ranker or the Resolver: when the resolver accepts the batch the unit is
carried forward into the final order and into integration, where the
driver attempts it like any other unit (only an empty `contentRef` is
skipped); it can fail only incidentally, at the cherry-pick itself. -/
theorem c7_unresolved_rank_carried (hist : String → List String)
    (master releaseBranch : String) (cls : List CL) (u : CL)
    (out : List CL)
    (hu : u ∈ gitFetchCLs hist master releaseBranch cls)
    (hord : u.Order = -1) (hcommit : u.Commit ≠ "")
    (hres : orderCLs (gitFetchCLs hist master releaseBranch cls) = some out) :
    u ∈ out ∧
    ∀ env st, (cherryPickOne env st u).2.2.1 ≠ Status.Skipped := by
  constructor
  · exact ((orderCLs_perm _ _ hres).mem_iff).mpr hu
  · intro env st
    exact cherryPickOne_status_ne_skipped env st u hcommit

/-- Witness for `c7_unresolved_rank_carried` at the concrete unranked
unit `c7CL`. -/
theorem c7_unresolved_rank_carried_witness :
    (({ c7CL with Order := -1 } : CL) ∈ gitFetchCLs c7Hist "master" "rel" [c7CL] ∧
      ({ c7CL with Order := -1 } : CL).Order = -1 ∧
      ({ c7CL with Order := -1 } : CL).Commit ≠ "" ∧
      orderCLs (gitFetchCLs c7Hist "master" "rel" [c7CL]) =
        some [{ c7CL with Order := -1 }]) ∧
    (({ c7CL with Order := -1 } : CL) ∈ [({ c7CL with Order := -1 } : CL)] ∧
      ∀ env st,
        (cherryPickOne env st ({ c7CL with Order := -1 } : CL)).2.2.1 ≠
          Status.Skipped) :=
  ⟨⟨by decide, by decide, by decide, by decide⟩,
    c7_unresolved_rank_carried c7Hist "master" "rel" [c7CL]
      { c7CL with Order := -1 } [{ c7CL with Order := -1 }]
      (by decide) (by decide) (by decide) (by decide)⟩

/-! ## Claim C2 about second-run idempotence -/

/-- Second-run analysis shared by the two upload leaves (no candidate, or
candidate discarded on fingerprint mismatch): the first run mailed the
amended commit, so the second run finds that mailed change recorded as
its candidate; by the Gerrit coherence fact `Href` the candidate's
fetched tip IS the amended commit, the fingerprints trivially match, and
the candidate is adopted (`Reused`) without mailing. -/
theorem cherryPickOne_second_upload (env : GitEnv)
    (Href : ∀ hd, env.refTip ((env.mailChange hd).CurrentRef) = hd)
    (st : DriverState) (cl : CL) (h0 : String) (he : cl.Commit ≠ "")
    (hp : env.cherryPick st.head cl.Commit = some h0)
    (hsucc : (cherryPickOne env st cl).2.2.1 = Status.Uploaded ∨
      (cherryPickOne env st cl).2.2.1 = Status.Reused)
    (e1 : cherryPickOne env st cl =
      buildAndPublish env st cl (env.amend h0) none []) :
    (cherryPickOne env st ((cherryPickOne env st cl).2.1)).1 =
      (cherryPickOne env st cl).1 ∧
    (cherryPickOne env st ((cherryPickOne env st cl).2.1)).2.1 =
      (cherryPickOne env st cl).2.1 ∧
    (cherryPickOne env st ((cherryPickOne env st cl).2.1)).2.2.1 =
      Status.Reused ∧
    (∀ n hd, Event.mailed n hd ∉
      (cherryPickOne env st ((cherryPickOne env st cl).2.1)).2.2.2) ∧
    ∃ c, (cherryPickOne env st cl).2.1.ReleaseBranchGerrit = some c ∧
      (1 ≤ labelValue c "TryBot-Result" →
        ∀ hd, Event.buildRun hd ∉
          (cherryPickOne env st ((cherryPickOne env st cl).2.1)).2.2.2) := by
  cases hok : env.makeBashOK (env.amend h0) with
  | false =>
    exfalso
    have eR1 := e1.trans
      (buildAndPublish_fail_none env st cl (env.amend h0) [] hok)
    rcases hsucc with h | h <;> rw [eR1] at h <;> simp at h
  | true =>
    have eR1 := e1.trans
      (buildAndPublish_run_none env st cl (env.amend h0) [] hok)
    have hfc : env.refTip ((env.mailChange (env.amend h0)).CurrentRef) =
        env.amend h0 := Href (env.amend h0)
    have hfp1 : env.treeOf
          (env.refTip ((env.mailChange (env.amend h0)).CurrentRef)) =
          env.treeOf (env.amend h0) ∧
        env.parentOf
          (env.refTip ((env.mailChange (env.amend h0)).CurrentRef)) =
          env.parentOf (env.amend h0) := by
      rw [hfc]
      exact ⟨rfl, rfl⟩
    by_cases hskip :
        1 ≤ labelValue (env.mailChange (env.amend h0)) "TryBot-Result"
    · have eR2 : cherryPickOne env st ((cherryPickOne env st cl).2.1) =
          (⟨env.amend h0, (env.mailChange (env.amend h0)).CurrentRef,
              (env.mailChange (env.amend h0)).CurrentRevision⟩,
            { cl with
                ReleaseBranchCL :=
                  (env.mailChange (env.amend h0)).ChangeNumber,
                ReleaseBranchGerrit :=
                  some (env.mailChange (env.amend h0)) },
            Status.Reused,
            [Event.resetToCandidate cl.Num (env.amend h0)] ++
              (if labelValue (env.mailChange (env.amend h0))
                    "Code-Review" < 2
                then [Event.reviewWarning cl.Num] else [])) := by
        rw [eR1]
        have e2 := (cherryPickOne_match env st
          { cl with
              ReleaseBranchCL :=
                (env.mailChange (env.amend h0)).ChangeNumber,
              ReleaseBranchGerrit :=
                some (env.mailChange (env.amend h0)) }
          h0 (env.mailChange (env.amend h0)) he hp rfl hfp1).trans
          (buildAndPublish_skip env st _ _
            (env.mailChange (env.amend h0)) _ hskip)
        rw [hfc] at e2
        exact e2
      rw [eR2, eR1]
      refine ⟨rfl, rfl, rfl, ?_, env.mailChange (env.amend h0), rfl, ?_⟩
      · intro n hd hmem
        rcases List.mem_append.mp hmem with hmem | hmem
        · simp at hmem
        · exact not_mailed_warn n hd cl.Num _ hmem
      · intro _ hd hmem
        rcases List.mem_append.mp hmem with hmem | hmem
        · simp at hmem
        · exact not_buildRun_warn hd cl.Num _ hmem
    · have hok2 : env.makeBashOK
          (env.refTip ((env.mailChange (env.amend h0)).CurrentRef)) =
          true := by
        rw [hfc]
        exact hok
      have eR2 : cherryPickOne env st ((cherryPickOne env st cl).2.1) =
          (⟨env.amend h0, (env.mailChange (env.amend h0)).CurrentRef,
              (env.mailChange (env.amend h0)).CurrentRevision⟩,
            { cl with
                ReleaseBranchCL :=
                  (env.mailChange (env.amend h0)).ChangeNumber,
                ReleaseBranchGerrit :=
                  some (env.mailChange (env.amend h0)) },
            Status.Reused,
            ([Event.resetToCandidate cl.Num (env.amend h0)] ++
                [Event.buildRun (env.amend h0)]) ++
              (if labelValue (env.mailChange (env.amend h0))
                    "Code-Review" < 2
                then [Event.reviewWarning cl.Num] else [])) := by
        rw [eR1]
        have e2 := (cherryPickOne_match env st
          { cl with
              ReleaseBranchCL :=
                (env.mailChange (env.amend h0)).ChangeNumber,
              ReleaseBranchGerrit :=
                some (env.mailChange (env.amend h0)) }
          h0 (env.mailChange (env.amend h0)) he hp rfl hfp1).trans
          (buildAndPublish_run_some env st _ _
            (env.mailChange (env.amend h0)) _ hskip hok2)
        rw [hfc] at e2
        exact e2
      rw [eR2, eR1]
      refine ⟨rfl, rfl, rfl, ?_, env.mailChange (env.amend h0), rfl,
        fun htb => absurd htb hskip⟩
      intro n hd hmem
      rcases List.mem_append.mp hmem with hmem | hmem
      · rcases List.mem_append.mp hmem with hmem | hmem <;> simp at hmem
      · exact not_mailed_warn n hd cl.Num _ hmem

/-- Re-processing a unit that succeeded (Uploaded or Reused), from the
same pre-unit driver state: the second pass reaches the same state,
leaves the unit record unchanged, ends `Reused`, mails nothing, and —
when the unit's adopted change carries `TryBot-Result ≥ +1` — runs no
build validation.  `Href` is the Gerrit coherence fact that fetching a
change's current ref yields the commit that was mailed. -/
theorem cherryPickOne_second (env : GitEnv)
    (Href : ∀ hd, env.refTip ((env.mailChange hd).CurrentRef) = hd)
    (st : DriverState) (cl : CL)
    (hsucc : (cherryPickOne env st cl).2.2.1 = Status.Uploaded ∨
      (cherryPickOne env st cl).2.2.1 = Status.Reused) :
    (cherryPickOne env st ((cherryPickOne env st cl).2.1)).1 =
      (cherryPickOne env st cl).1 ∧
    (cherryPickOne env st ((cherryPickOne env st cl).2.1)).2.1 =
      (cherryPickOne env st cl).2.1 ∧
    (cherryPickOne env st ((cherryPickOne env st cl).2.1)).2.2.1 =
      Status.Reused ∧
    (∀ n hd, Event.mailed n hd ∉
      (cherryPickOne env st ((cherryPickOne env st cl).2.1)).2.2.2) ∧
    ∃ c, (cherryPickOne env st cl).2.1.ReleaseBranchGerrit = some c ∧
      (1 ≤ labelValue c "TryBot-Result" →
        ∀ hd, Event.buildRun hd ∉
          (cherryPickOne env st ((cherryPickOne env st cl).2.1)).2.2.2) := by
  by_cases he : cl.Commit = ""
  · exfalso
    rcases hsucc with h | h <;> simp [cherryPickOne_skip env st cl he] at h
  · cases hp : env.cherryPick st.head cl.Commit with
    | none =>
      exfalso
      rcases hsucc with h | h <;>
        simp [cherryPickOne_conflict env st cl he hp] at h
    | some h0 =>
      cases hg : cl.ReleaseBranchGerrit with
      | some cand =>
        by_cases hfp : env.treeOf (env.refTip cand.CurrentRef) =
            env.treeOf (env.amend h0) ∧
            env.parentOf (env.refTip cand.CurrentRef) =
              env.parentOf (env.amend h0)
        · -- reuse family: the candidate is adopted in both runs
          have e1 := cherryPickOne_match env st cl h0 cand he hp hg hfp
          by_cases hskip : 1 ≤ labelValue cand "TryBot-Result"
          · have eR1 := e1.trans (buildAndPublish_skip env st cl
              (env.refTip cand.CurrentRef) cand
              [Event.resetToCandidate cl.Num (env.refTip cand.CurrentRef)]
              hskip)
            have eR2 : cherryPickOne env st ((cherryPickOne env st cl).2.1) =
                (⟨env.refTip cand.CurrentRef, cand.CurrentRef,
                    cand.CurrentRevision⟩,
                  { cl with ReleaseBranchCL := cand.ChangeNumber,
                            ReleaseBranchGerrit := some cand },
                  Status.Reused,
                  [Event.resetToCandidate cl.Num (env.refTip cand.CurrentRef)]
                    ++ (if labelValue cand "Code-Review" < 2
                      then [Event.reviewWarning cl.Num] else [])) := by
              rw [eR1]
              exact (cherryPickOne_match env st
                { cl with ReleaseBranchCL := cand.ChangeNumber,
                          ReleaseBranchGerrit := some cand } h0 cand he hp rfl
                hfp).trans (buildAndPublish_skip env st _ _ cand _ hskip)
            rw [eR2, eR1]
            refine ⟨rfl, rfl, rfl, ?_, cand, rfl, ?_⟩
            · intro n hd hmem
              rcases List.mem_append.mp hmem with hmem | hmem
              · simp at hmem
              · exact not_mailed_warn n hd cl.Num _ hmem
            · intro _ hd hmem
              rcases List.mem_append.mp hmem with hmem | hmem
              · simp at hmem
              · exact not_buildRun_warn hd cl.Num _ hmem
          · cases hok : env.makeBashOK (env.refTip cand.CurrentRef) with
            | false =>
              exfalso
              have eR1 := e1.trans (buildAndPublish_fail_some env st cl
                (env.refTip cand.CurrentRef) cand
                [Event.resetToCandidate cl.Num (env.refTip cand.CurrentRef)]
                hskip hok)
              rcases hsucc with h | h <;> rw [eR1] at h <;> simp at h
            | true =>
              have eR1 := e1.trans (buildAndPublish_run_some env st cl
                (env.refTip cand.CurrentRef) cand
                [Event.resetToCandidate cl.Num (env.refTip cand.CurrentRef)]
                hskip hok)
              have eR2 : cherryPickOne env st ((cherryPickOne env st cl).2.1) =
                  (⟨env.refTip cand.CurrentRef, cand.CurrentRef,
                      cand.CurrentRevision⟩,
                    { cl with ReleaseBranchCL := cand.ChangeNumber,
                              ReleaseBranchGerrit := some cand },
                    Status.Reused,
                    ([Event.resetToCandidate cl.Num
                        (env.refTip cand.CurrentRef)] ++
                      [Event.buildRun (env.refTip cand.CurrentRef)]) ++
                      (if labelValue cand "Code-Review" < 2
                        then [Event.reviewWarning cl.Num] else [])) := by
                rw [eR1]
                exact (cherryPickOne_match env st
                  { cl with ReleaseBranchCL := cand.ChangeNumber,
                            ReleaseBranchGerrit := some cand } h0 cand he hp
                  rfl hfp).trans
                  (buildAndPublish_run_some env st _ _ cand _ hskip hok)
              rw [eR2, eR1]
              refine ⟨rfl, rfl, rfl, ?_, cand, rfl,
                fun htb => absurd htb hskip⟩
              intro n hd hmem
              rcases List.mem_append.mp hmem with hmem | hmem
              · rcases List.mem_append.mp hmem with hmem | hmem <;>
                  simp at hmem
              · exact not_mailed_warn n hd cl.Num _ hmem
        · -- upload family, discarded candidate
          have e1 := cherryPickOne_mismatch env st cl h0 cand he hp hg hfp
          exact cherryPickOne_second_upload env Href st cl h0 he hp hsucc e1
      | none =>
        have e1 := cherryPickOne_nocand env st cl h0 he hp hg
        exact cherryPickOne_second_upload env Href st cl h0 he hp hsucc e1

/-- Unfolding equation for one step of the driver loop. -/
theorem cherryPickList_cons (env : GitEnv) (st : DriverState) (cl : CL)
    (rest : List CL) :
    cherryPickList env st (cl :: rest) =
      ((cherryPickList env (cherryPickOne env st cl).1 rest).1,
        ((cherryPickOne env st cl).2.1, (cherryPickOne env st cl).2.2.1) ::
          (cherryPickList env (cherryPickOne env st cl).1 rest).2.1,
        (cherryPickOne env st cl).2.2.2 ++
          (cherryPickList env (cherryPickOne env st cl).1 rest).2.2) := rfl

/-- Second-run analysis for the whole loop: re-running the driver from
the same starting state over the unit records left by a fully successful
first run reaches the same final state, reproduces the first run's
output with every status turned `Reused`, mails nothing, and — when
every unit's adopted candidate carries `TryBot-Result ≥ +1` — runs no
build validation. -/
theorem cherryPickList_second (env : GitEnv)
    (Href : ∀ hd, env.refTip ((env.mailChange hd).CurrentRef) = hd)
    (cls : List CL) : ∀ st : DriverState,
    (∀ p ∈ (cherryPickList env st cls).2.1,
      p.2 = Status.Uploaded ∨ p.2 = Status.Reused) →
    (cherryPickList env st
        ((cherryPickList env st cls).2.1.map Prod.fst)).1 =
      (cherryPickList env st cls).1 ∧
    (cherryPickList env st
        ((cherryPickList env st cls).2.1.map Prod.fst)).2.1 =
      (cherryPickList env st cls).2.1.map (fun p => (p.1, Status.Reused)) ∧
    (∀ n hd, Event.mailed n hd ∉
      (cherryPickList env st
        ((cherryPickList env st cls).2.1.map Prod.fst)).2.2) ∧
    ((∀ p ∈ (cherryPickList env st cls).2.1, ∀ c,
        p.1.ReleaseBranchGerrit = some c →
          1 ≤ labelValue c "TryBot-Result") →
      ∀ hd, Event.buildRun hd ∉
        (cherryPickList env st
          ((cherryPickList env st cls).2.1.map Prod.fst)).2.2) := by
  induction cls with
  | nil =>
    intro st _
    refine ⟨rfl, rfl, ?_, ?_⟩
    · intro n hd hmem
      exact List.not_mem_nil _ hmem
    · intro _ hd hmem
      exact List.not_mem_nil _ hmem
  | cons cl rest ih =>
    intro st hsucc
    have hs1 : (cherryPickOne env st cl).2.2.1 = Status.Uploaded ∨
        (cherryPickOne env st cl).2.2.1 = Status.Reused := by
      have hm : ((cherryPickOne env st cl).2.1,
          (cherryPickOne env st cl).2.2.1) ∈
          (cherryPickList env st (cl :: rest)).2.1 := by
        rw [cherryPickList_cons]
        exact List.mem_cons_self _ _
      exact hsucc _ hm
    have hsR : ∀ p ∈ (cherryPickList env (cherryPickOne env st cl).1
        rest).2.1, p.2 = Status.Uploaded ∨ p.2 = Status.Reused := by
      intro p hp
      refine hsucc p ?_
      rw [cherryPickList_cons]
      exact List.mem_cons_of_mem _ hp
    obtain ⟨h1, h2, h3, h4, c, hc, htbc⟩ :=
      cherryPickOne_second env Href st cl hs1
    obtain ⟨i1, i2, i3, i4⟩ := ih (cherryPickOne env st cl).1 hsR
    have hmap : (cherryPickList env st (cl :: rest)).2.1.map Prod.fst =
        (cherryPickOne env st cl).2.1 ::
          (cherryPickList env (cherryPickOne env st cl).1
            rest).2.1.map Prod.fst := by
      rw [cherryPickList_cons]
      rfl
    have hrun2 : cherryPickList env st
        ((cherryPickList env st (cl :: rest)).2.1.map Prod.fst) =
        ((cherryPickList env (cherryPickOne env st cl).1
            ((cherryPickList env (cherryPickOne env st cl).1
              rest).2.1.map Prod.fst)).1,
          ((cherryPickOne env st cl).2.1, Status.Reused) ::
            (cherryPickList env (cherryPickOne env st cl).1
              ((cherryPickList env (cherryPickOne env st cl).1
                rest).2.1.map Prod.fst)).2.1,
          (cherryPickOne env st ((cherryPickOne env st cl).2.1)).2.2.2 ++
            (cherryPickList env (cherryPickOne env st cl).1
              ((cherryPickList env (cherryPickOne env st cl).1
                rest).2.1.map Prod.fst)).2.2) := by
      rw [hmap, cherryPickList_cons, h1, h2, h3]
    refine ⟨?_, ?_, ?_, ?_⟩
    · rw [hrun2, cherryPickList_cons]
      exact i1
    · rw [hrun2, cherryPickList_cons]
      exact List.cons_eq_cons.mpr ⟨rfl, i2⟩
    · intro n hd hmem
      rw [hrun2] at hmem
      rcases List.mem_append.mp hmem with hm | hm
      · exact h4 n hd hm
      · exact i3 n hd hm
    · intro htb hd hmem
      have htb1 : 1 ≤ labelValue c "TryBot-Result" := by
        refine htb ((cherryPickOne env st cl).2.1,
          (cherryPickOne env st cl).2.2.1) ?_ c hc
        rw [cherryPickList_cons]
        exact List.mem_cons_self _ _
      have htbR : ∀ p ∈ (cherryPickList env (cherryPickOne env st cl).1
          rest).2.1, ∀ c2, p.1.ReleaseBranchGerrit = some c2 →
          1 ≤ labelValue c2 "TryBot-Result" := by
        intro p hp c2 hc2
        refine htb p ?_ c2 hc2
        rw [cherryPickList_cons]
        exact List.mem_cons_of_mem _ hp
      rw [hrun2] at hmem
      rcases List.mem_append.mp hmem with hm | hm
      · exact htbc htb1 hd hm
      · exact i4 htbR hd hm

/-- C2, counterexample.  A batch of one unit that uploads on the first
run (so the first run fully succeeded), whose mailed change's trybots
have not voted: the second run reuses the candidate and mails nothing,
but its event log contains a `make.bash` run — NOT "zero build
validations". -/
theorem c2_counterexample :
    c2Run1.2.1.map Prod.snd = [Status.Uploaded] ∧
    c2Run2.2.1.map Prod.snd = [Status.Reused] ∧
    c2Run2.2.2 = [Event.resetToCandidate 7 "locA",
      Event.buildRun "locA"] := by
  refine ⟨by decide, by decide, by decide⟩

/-- C2: re-running `cherryPickCLs` from the same starting point over the
unit records left by a fully successful first run (every status
`Uploaded` or `Reused`, with the Gerrit coherence `Href` that fetching a
mailed change's current ref yields the mailed commit) reaches the same
final state, turns every unit's status to `Reused`, and performs zero
new uploads; it performs zero build validations PROVIDED every unit's
recorded candidate carries `TryBot-Result ≥ +1` (by `c2_counterexample`,
without that proviso the second run does rerun `make.bash`). -/
theorem c2_second_run_reuses (env : GitEnv)
    (Href : ∀ hd, env.refTip ((env.mailChange hd).CurrentRef) = hd)
    (head0 releaseBranch : String) (cls : List CL)
    (hsucc : ∀ p ∈ (cherryPickCLs env head0 releaseBranch cls).2.1,
      p.2 = Status.Uploaded ∨ p.2 = Status.Reused) :
    (cherryPickCLs env head0 releaseBranch
        ((cherryPickCLs env head0 releaseBranch cls).2.1.map
          Prod.fst)).1 =
      (cherryPickCLs env head0 releaseBranch cls).1 ∧
    (cherryPickCLs env head0 releaseBranch
        ((cherryPickCLs env head0 releaseBranch cls).2.1.map
          Prod.fst)).2.1 =
      (cherryPickCLs env head0 releaseBranch cls).2.1.map
        (fun p => (p.1, Status.Reused)) ∧
    (∀ n hd, Event.mailed n hd ∉
      (cherryPickCLs env head0 releaseBranch
        ((cherryPickCLs env head0 releaseBranch cls).2.1.map
          Prod.fst)).2.2) ∧
    ((∀ p ∈ (cherryPickCLs env head0 releaseBranch cls).2.1, ∀ c,
        p.1.ReleaseBranchGerrit = some c →
          1 ≤ labelValue c "TryBot-Result") →
      ∀ hd, Event.buildRun hd ∉
        (cherryPickCLs env head0 releaseBranch
          ((cherryPickCLs env head0 releaseBranch cls).2.1.map
            Prod.fst)).2.2) :=
  cherryPickList_second env Href cls
    ⟨head0, releaseBranch, "origin/" ++ releaseBranch⟩ hsucc

/-- In the witness environment, fetching the ref of a mailed change
recovers the mailed commit: `dropPre "ref/" ("ref/" ++ hd) = hd`. -/
theorem c2wEnv_refTip_mail :
    ∀ hd, c2wEnv.refTip ((c2wEnv.mailChange hd).CurrentRef) = hd := by
  intro hd
  obtain ⟨l⟩ := hd
  show String.mk (List.drop "ref/".data.length ("ref/".data ++ l)) =
    String.mk l
  rw [List.drop_left]

/-- C2, witness: at the concrete one-unit batch whose mailed changes
carry `TryBot-Result +1`, the coherence and first-run-success hypotheses
hold, and the second run reaches the same state, turns the unit
`Reused`, mails nothing, and runs no build validation. -/
theorem c2_second_run_reuses_witness :
    (∀ hd, c2wEnv.refTip ((c2wEnv.mailChange hd).CurrentRef) = hd) ∧
    (∀ p ∈ (cherryPickCLs c2wEnv "base" "rel" [c2CL]).2.1,
      p.2 = Status.Uploaded ∨ p.2 = Status.Reused) ∧
    ((cherryPickCLs c2wEnv "base" "rel"
        ((cherryPickCLs c2wEnv "base" "rel" [c2CL]).2.1.map
          Prod.fst)).1 =
      (cherryPickCLs c2wEnv "base" "rel" [c2CL]).1 ∧
    (cherryPickCLs c2wEnv "base" "rel"
        ((cherryPickCLs c2wEnv "base" "rel" [c2CL]).2.1.map
          Prod.fst)).2.1 =
      (cherryPickCLs c2wEnv "base" "rel" [c2CL]).2.1.map
        (fun p => (p.1, Status.Reused)) ∧
    (∀ n hd, Event.mailed n hd ∉
      (cherryPickCLs c2wEnv "base" "rel"
        ((cherryPickCLs c2wEnv "base" "rel" [c2CL]).2.1.map
          Prod.fst)).2.2) ∧
    ((∀ p ∈ (cherryPickCLs c2wEnv "base" "rel" [c2CL]).2.1, ∀ c,
        p.1.ReleaseBranchGerrit = some c →
          1 ≤ labelValue c "TryBot-Result") →
      ∀ hd, Event.buildRun hd ∉
        (cherryPickCLs c2wEnv "base" "rel"
          ((cherryPickCLs c2wEnv "base" "rel" [c2CL]).2.1.map
            Prod.fst)).2.2)) :=
  ⟨c2wEnv_refTip_mail, by decide,
    c2_second_run_reuses c2wEnv c2wEnv_refTip_mail "base" "rel" [c2CL]
      (by decide)⟩

end Releasebot
